import Mathlib

/-!
# Verification of the streaming group-by aggregation operator

A shallow embedding of `velox/exec/StreamingAggregation.cpp`.

Modelling conventions:
* Column values are an abstract type `V` with decidable equality; a row is a
  `List V` of column values and a batch is a `List (List V)`.
* The row container (`RowContainer`, an external collaborator) is modelled as a
  list of slot contents indexed by slot id; `newRow` appends, `initializeRow`
  overwrites in place.  Slot pointers become slot ids (`Nat`).
* Aggregate kernels (`Aggregate`, external collaborators) are modelled
  abstractly: an accumulator is the list of contributions the kernel has
  received, each contribution tagged with whether it arrived through the
  raw-input path and carrying the materialized argument values.
  Extraction tags the result with whether accumulator state (partial output)
  or final values were requested.
* The mask collaborator (`AggregationMasks`) is modelled from the spec: for an
  aggregate with a mask column it returns the rows of the current selection
  whose mask value is truthy; otherwise it reports no mask.
* `getOutput` additionally returns the list of collaborator calls it makes, in
  order, so that call-ordering (temporal) properties can be stated.
-/

namespace StreamingAggregation

/-- Step of an aggregation node (`core::AggregationNode::Step`). -/
inductive Step where
  | kPartial
  | kIntermediate
  | kFinal
  | kSingle
deriving DecidableEq, Repr

/-- `velox::core::isRawInput`: the step consumes raw input rows. -/
def isRawInput : Step → Bool
  | Step.kPartial => true
  | Step.kSingle => true
  | _ => false

/-- `velox::core::isPartialOutput`: the step emits intermediate accumulator
state rather than final values. -/
def isPartialOutput : Step → Bool
  | Step.kPartial => true
  | Step.kIntermediate => true
  | _ => false

variable {V : Type}

/-- A row of a vector batch: the list of its column values. -/
abbrev Row (V : Type) := List V

/-- A row batch (a `RowVector`): a list of rows. -/
abbrev Batch (V : Type) := List (Row V)

/-- A grouping-key tuple: the values of a row at the grouping-key channels
(`none` when the channel is out of range of the row). -/
abbrev KeyTuple (V : Type) := List (Option V)

/-- The grouping-key tuple of a row, given the key channel list. -/
def keyOf (groupingKeys : List Nat) (row : Row V) : KeyTuple V :=
  groupingKeys.map fun k => row.get? k

/-- `equalKeys` (anonymous namespace of StreamingAggregation.cpp): true iff the
two (batch, row) positions agree on every grouping-key column. -/
def equalKeys [DecidableEq V] (keys : List Nat) (batch : Batch V) (index : Nat)
    (otherBatch : Batch V) (otherIndex : Nat) : Bool :=
  keys.all fun key =>
    decide ((batch.getD index []).get? key = (otherBatch.getD otherIndex []).get? key)

/-- One argument of an aggregate call: an input column channel, or a constant
pre-materialized as a length-1 vector (`kConstantChannel` entries of `args_`
paired with `constantArgs_`). -/
inductive ArgSource (V : Type) where
  | channel (c : Nat)
  | constant (v : V)
deriving DecidableEq

/-- Per-aggregate configuration: argument sources and the optional mask column
channel. -/
structure AggregateInfo (V : Type) where
  args : List (ArgSource V)
  mask : Option Nat
deriving DecidableEq

instance : Inhabited (AggregateInfo V) := ⟨⟨[], none⟩⟩

/-- Operator configuration fixed at initialization: grouping-key channels,
aggregate descriptors, the step, and the output batch size target.
`truthy` is the mask evaluator collaborator's notion of a true mask value. -/
structure OpConfig (V : Type) where
  groupingKeys : List Nat
  aggregates : List (AggregateInfo V)
  step : Step
  outputBatchSize : Nat
  truthy : V → Bool

/-- One update received by an aggregate kernel for one selected row: whether it
came through the raw-input path, and the materialized argument values. -/
abbrev Contribution (V : Type) := Bool × List (Option V)

/-- Contents of one accumulator row (one slot) of the row container: the stored
grouping-key values followed by each aggregate's accumulator, modelled as the
list of contributions received since the slot was last initialized. -/
structure SlotContent (V : Type) where
  keys : KeyTuple V
  accs : List (List (Contribution V))
deriving DecidableEq

instance : Inhabited (SlotContent V) := ⟨⟨[], []⟩⟩

/-- A freshly initialized slot for `m` aggregates. -/
def emptySlot (m : Nat) : SlotContent V := ⟨[], List.replicate m []⟩

/-- Mutable operator state (the fields of `StreamingAggregation`). `groups` is
the slot pointer vector `groups_`, `rowData` the row container's storage. -/
structure OpState (V : Type) where
  groups : List Nat
  numGroups : Nat
  rowData : List (SlotContent V)
  input : Option (Batch V)
  prevInput : Option (Batch V)
  noMoreInput : Bool

/-- Operator state right after initialization. -/
def initialState : OpState V :=
  ⟨[], 0, [], none, none, false⟩

/-- `RowContainer::newRow` (collaborator): allocate a fresh row, returning its
slot id. -/
def newRow (rowData : List (SlotContent V)) (m : Nat) : Nat × List (SlotContent V) :=
  (rowData.length, rowData ++ [emptySlot m])

/-- `RowContainer::initializeRow(row, reuse = true)` (collaborator):
re-initialize an existing slot in place. -/
def initializeRow (rowData : List (SlotContent V)) (slot : Nat) (m : Nat) :
    List (SlotContent V) :=
  rowData.set slot (emptySlot m)

/-- `StreamingAggregation::storeKeys`: store the grouping-key values of input
row `index` into the slot (one `rows_->store` per key column; the decoded key
vectors are read directly from the input batch here). -/
def storeKeys (groupingKeys : List Nat) (input : Batch V)
    (rowData : List (SlotContent V)) (slot : Nat) (index : Nat) :
    List (SlotContent V) :=
  rowData.set slot
    { rowData.getD slot default with keys := keyOf groupingKeys (input.getD index []) }

/-- `std::vector::resize` on a list. -/
def resizeList (l : List Nat) (n : Nat) (d : Nat) : List Nat :=
  l.take n ++ List.replicate (n - l.length) d

/-- `StreamingAggregation::startNewGroup`: recycle `groups_[numGroups_]` when
available, otherwise allocate a fresh row and append it; store the keys of
input row `index`; increment `numGroups_`; return the slot. -/
def startNewGroup (cfg : OpConfig V) (input : Batch V) (s : OpState V)
    (index : Nat) : Nat × OpState V :=
  let m := cfg.aggregates.length
  if s.numGroups < s.groups.length then
    let group := s.groups.getD s.numGroups 0
    (group,
      { s with
        rowData :=
          storeKeys cfg.groupingKeys input (initializeRow s.rowData group m) group index,
        numGroups := s.numGroups + 1 })
  else
    let alloc := newRow s.rowData m
    (alloc.1,
      { s with
        rowData := storeKeys cfg.groupingKeys input alloc.2 alloc.1 index,
        groups := (resizeList s.groups (s.numGroups + 1) 0).set s.numGroups alloc.1,
        numGroups := s.numGroups + 1 })

/-- The second loop of `StreamingAggregation::assignGroups`: walk the remaining
row indices, extending the run headed at row `index` (current group `curGroup`)
and opening a new group at each key change. Returns the group assigned to each
walked row, and the updated state. -/
def assignLoop [DecidableEq V] (cfg : OpConfig V) (input : Batch V) :
    OpState V → Nat → Nat → List Nat → List Nat × OpState V
  | s, _, _, [] => ([], s)
  | s, index, curGroup, i :: rest =>
    if equalKeys cfg.groupingKeys input index input i then
      let next := assignLoop cfg input s index curGroup rest
      (curGroup :: next.1, next.2)
    else
      let opened := startNewGroup cfg input s i
      let next := assignLoop cfg input opened.2 i opened.1 rest
      (opened.1 :: next.1, next.2)

/-- `StreamingAggregation::assignGroups`: first extend the straddling last open
group with the input's prefix of rows matching the previous batch's last row,
then open new groups for the remaining key runs. Returns `inputGroups_` (the
slot assigned to each input row) and the updated state. -/
def assignGroups [DecidableEq V] (cfg : OpConfig V) (input : Batch V)
    (s : OpState V) : List Nat × OpState V :=
  let numInput := input.length
  let seam : Nat × List Nat :=
    match s.prevInput with
    | some prev =>
      let prevIndex := prev.length - 1
      let prevGroup := s.groups.getD (s.numGroups - 1) 0
      let c := ((List.range numInput).takeWhile fun i =>
        equalKeys cfg.groupingKeys prev prevIndex input i).length
      (c, List.replicate c prevGroup)
    | none => (0, [])
  if seam.1 < numInput then
    let opened := startNewGroup cfg input s seam.1
    let next :=
      assignLoop cfg input opened.2 seam.1 opened.1 ((List.range numInput).drop (seam.1 + 1))
    (seam.2 ++ opened.1 :: next.1, next.2)
  else
    (seam.2, s)

/-- Materialized argument values of one aggregate at one row: child column
values for channel arguments, the pre-materialized constant otherwise. -/
def argVals (agg : AggregateInfo V) (row : Row V) : List (Option V) :=
  agg.args.map fun a =>
    match a with
    | ArgSource.channel c => row.get? c
    | ArgSource.constant v => some v

/-- Whether a row passes an aggregate's mask (trivially true without a mask).
Part of the mask collaborator model. -/
def maskPasses (cfg : OpConfig V) (agg : AggregateInfo V) (row : Row V) : Bool :=
  match agg.mask with
  | none => true
  | some c =>
    match row.get? c with
    | some v => cfg.truthy v
    | none => false

/-- Modelled from the spec: `AggregationMasks::activeRows` (mask evaluation is
an external collaborator).  For an aggregate with a mask column it returns the
currently selected rows whose mask value is truthy; otherwise it returns
nothing and the caller falls back to the full selection. -/
def activeRows (cfg : OpConfig V) (agg : AggregateInfo V) (input : Batch V)
    (inputRows : List Nat) : Option (List Nat) :=
  match agg.mask with
  | none => none
  | some _ => some (inputRows.filter fun r => maskPasses cfg agg (input.getD r []))

/-- `StreamingAggregation::getSelectivityVector`: the mask collaborator's
active rows when the aggregate has a mask, the full input selection
otherwise. -/
def getSelectivityVector (cfg : OpConfig V) (aggregateIndex : Nat)
    (input : Batch V) (inputRows : List Nat) : List Nat :=
  match activeRows cfg (cfg.aggregates.getD aggregateIndex default) input inputRows with
  | some rows => rows
  | none => inputRows

/-- Kernel model: record one contribution in the accumulator of aggregate
`aggIdx` at slot `slot`. -/
def addContribution (rowData : List (SlotContent V)) (slot : Nat) (aggIdx : Nat)
    (c : Contribution V) : List (SlotContent V) :=
  match rowData.get? slot with
  | none => rowData
  | some content =>
    rowData.set slot
      { content with
        accs := content.accs.set aggIdx (content.accs.getD aggIdx [] ++ [c]) }

/-- Kernel model of `addRawInput` / `addIntermediateResults` for one aggregate:
for each selected row, record its materialized argument values in the
accumulator of the row's assigned group. -/
def updateAggregate (raw : Bool) (agg : AggregateInfo V) (aggIdx : Nat)
    (input : Batch V) (inputGroups : List Nat) (rows : List Nat)
    (rowData : List (SlotContent V)) : List (SlotContent V) :=
  rows.foldl
    (fun rd r =>
      addContribution rd (inputGroups.getD r 0) aggIdx (raw, argVals agg (input.getD r [])))
    rowData

/-- `StreamingAggregation::evaluateAggregates`: for each aggregate, materialize
its arguments, take its selectivity, and dispatch to the raw-input or
intermediate-merge kernel path according to the step. -/
def evaluateAggregates [DecidableEq V] (cfg : OpConfig V) (input : Batch V)
    (inputRows : List Nat) (inputGroups : List Nat)
    (rowData : List (SlotContent V)) : List (SlotContent V) :=
  (List.range cfg.aggregates.length).foldl
    (fun rd i =>
      let agg := cfg.aggregates.getD i default
      let rows := getSelectivityVector cfg i input inputRows
      updateAggregate (isRawInput cfg.step) agg i input inputGroups rows rd)
    rowData

/-- Kernel model of `Aggregate::initializeNewGroups` for one aggregate: reset
this aggregate's accumulator in each newly opened slot. -/
def initializeNewGroupsAgg (groups : List Nat) (aggIdx : Nat)
    (newGroups : List Nat) (rowData : List (SlotContent V)) :
    List (SlotContent V) :=
  newGroups.foldl
    (fun rd g =>
      let slot := groups.getD g 0
      match rd.get? slot with
      | none => rd
      | some content => rd.set slot { content with accs := content.accs.set aggIdx [] })
    rowData

/-- The loop of `getOutput` that calls `initializeNewGroups` on every
aggregate. -/
def initializeAllAggs (m : Nat) (groups : List Nat) (newGroups : List Nat)
    (rowData : List (SlotContent V)) : List (SlotContent V) :=
  (List.range m).foldl (fun rd i => initializeNewGroupsAgg groups i newGroups rd) rowData

/-- One row of an emitted output batch: the grouping-key columns followed by
the aggregate result columns.  An aggregate column carries whether it was
extracted as accumulator state (`extractAccumulators`) or as final values
(`extractValues`), together with the accumulator contents. -/
structure OutRow (V : Type) where
  keys : KeyTuple V
  aggs : List (Bool × List (Contribution V))
deriving DecidableEq

instance : Inhabited (OutRow V) := ⟨⟨[], []⟩⟩

/-- `StreamingAggregation::createOutput`: an output batch of `numGroups` rows;
row `r` extracts the keys and the aggregate results of slot `groups_[r]`,
using `extractAccumulators` for partial-output steps and `extractValues`
otherwise. -/
def createOutput (cfg : OpConfig V) (s : OpState V) (numGroups : Nat) :
    List (OutRow V) :=
  (List.range numGroups).map fun r =>
    let content := s.rowData.getD (s.groups.getD r 0) default
    { keys := content.keys,
      aggs := (List.range cfg.aggregates.length).map fun i =>
        (isPartialOutput cfg.step, content.accs.getD i []) }

/-- A collaborator call made by `getOutput`, for call-ordering properties. -/
inductive Event (V : Type) where
  | assignRow (row : Nat) (slot : Nat)
  | initNewGroups (agg : Nat) (newGroups : List Nat)
  | addRawInput (agg : Nat) (rows : List Nat) (mayPushdown : Bool)
  | addIntermediateResults (agg : Nat) (rows : List Nat) (mayPushdown : Bool)
  | extractValues (agg : Nat) (count : Nat)
  | extractAccumulators (agg : Nat) (count : Nat)
deriving DecidableEq

/-- The extraction calls made by one `createOutput(n)`. -/
def extractEvents (cfg : OpConfig V) (n : Nat) : List (Event V) :=
  (List.range cfg.aggregates.length).map fun i =>
    if isPartialOutput cfg.step then Event.extractAccumulators i n
    else Event.extractValues i n

/-- The kernel update calls made by one `evaluateAggregates`. -/
def updateEvents [DecidableEq V] (cfg : OpConfig V) (input : Batch V)
    (inputRows : List Nat) : List (Event V) :=
  (List.range cfg.aggregates.length).map fun i =>
    let rows := getSelectivityVector cfg i input inputRows
    if isRawInput cfg.step then Event.addRawInput i rows false
    else Event.addIntermediateResults i rows false

/-- `StreamingAggregation::getOutput`: with no pending input, flush every open
group once `noMoreInput` is set; otherwise assign groups, initialize the
aggregates for the newly opened slots, update the kernels, and emit a batch of
`outputBatchSize_` rows (rotating the slot vector) when more than
`outputBatchSize_` groups are open.  Also returns the collaborator calls made,
in order. -/
def getOutput [DecidableEq V] (cfg : OpConfig V) (s : OpState V) :
    Option (List (OutRow V)) × OpState V × List (Event V) :=
  match s.input with
  | none =>
    if s.noMoreInput && decide (0 < s.numGroups) then
      (some (createOutput cfg s s.numGroups), { s with numGroups := 0 },
        extractEvents cfg s.numGroups)
    else
      (none, s, [])
  | some input =>
    let numInput := input.length
    let inputRows := List.range numInput
    let numPrevGroups := s.numGroups
    let assigned := assignGroups cfg input s
    let inputGroups := assigned.1
    let s1 := assigned.2
    let newGroups := List.range' numPrevGroups (s1.numGroups - numPrevGroups)
    let rd2 := initializeAllAggs cfg.aggregates.length s1.groups newGroups s1.rowData
    let rd3 := evaluateAggregates cfg input inputRows inputGroups rd2
    let s3 := { s1 with rowData := rd3 }
    let emitted :=
      if cfg.outputBatchSize < s3.numGroups then
        (some (createOutput cfg s3 cfg.outputBatchSize),
          { s3 with
            groups := s3.groups.drop cfg.outputBatchSize ++ s3.groups.take cfg.outputBatchSize,
            numGroups := s3.numGroups - cfg.outputBatchSize })
      else
        (none, s3)
    let trace :=
      (inputGroups.enum.map fun p => Event.assignRow p.1 p.2)
        ++ ((List.range cfg.aggregates.length).map fun i => Event.initNewGroups i newGroups)
        ++ updateEvents cfg input inputRows
        ++ (match emitted.1 with
            | some _ => extractEvents cfg cfg.outputBatchSize
            | none => [])
    (emitted.1, { emitted.2 with prevInput := some input, input := none }, trace)

/-- `StreamingAggregation::addInput`: store the batch as the pending input. -/
def addInput (s : OpState V) (input : Batch V) : OpState V :=
  { s with input := some input }

/-- `StreamingAggregation::isFinished`. -/
def isFinished (s : OpState V) : Bool :=
  s.noMoreInput && s.input.isNone && decide (s.numGroups = 0)

/-- The emitted batch of one `getOutput` call. -/
def getOutputResult [DecidableEq V] (cfg : OpConfig V) (s : OpState V) :
    Option (List (OutRow V)) :=
  (getOutput cfg s).1

/-- The post-state of one `getOutput` call. -/
def getOutputState [DecidableEq V] (cfg : OpConfig V) (s : OpState V) : OpState V :=
  (getOutput cfg s).2.1

/-- The collaborator calls of one `getOutput` call, in order. -/
def getOutputTrace [DecidableEq V] (cfg : OpConfig V) (s : OpState V) : List (Event V) :=
  (getOutput cfg s).2.2

/-- Drive the operator under the pull protocol: alternate `addInput` and
`getOutput` over the given batches, collecting the emitted output batches. -/
def runBatches [DecidableEq V] (cfg : OpConfig V) :
    OpState V → List (Batch V) → List (List (OutRow V)) × OpState V
  | s, [] => ([], s)
  | s, b :: bs =>
    let step1 := getOutput cfg (addInput s b)
    let rest := runBatches cfg step1.2.1 bs
    (step1.1.toList ++ rest.1, rest.2)

/-- A full run: feed every batch, then set `noMoreInput` and drain the terminal
flush.  Returns the sequence of emitted output batches. -/
def runStream [DecidableEq V] (cfg : OpConfig V) (batches : List (Batch V)) :
    List (List (OutRow V)) :=
  let fed := runBatches cfg initialState batches
  let flush := getOutput cfg { fed.2 with noMoreInput := true }
  fed.1 ++ flush.1.toList

/-! ## Initialization (`StreamingAggregation::initialize`) -/

/-- One aggregate of the plan node, as `initialize` inspects it: whether it
requests sorted or distinct inputs, and its kernel configuration. -/
structure PlanAggregate (V : Type) where
  sortingKeys : List Nat
  distinct : Bool
  args : List (ArgSource V)
  mask : Option Nat

/-- The aggregation plan node fields that `initialize` reads. -/
structure AggregationNode (V : Type) where
  groupingKeys : List Nat
  aggregates : List (PlanAggregate V)
  step : Step
  ignoreNullKeys : Bool

/-- The per-aggregate validation loop of `initialize`: reject sorted inputs,
then reject distinct inputs, for each aggregate in order. -/
def checkAggregates (aggs : List (PlanAggregate V)) : Except String Unit :=
  match aggs with
  | [] => Except.ok ()
  | agg :: rest =>
    if agg.sortingKeys ≠ [] then
      Except.error "Streaming aggregation does not support aggregations over sorted inputs yet"
    else if agg.distinct then
      Except.error "Streaming aggregation does not support aggregations over distinct inputs yet"
    else
      checkAggregates rest

/-- `StreamingAggregation::initialize`: validate the plan node (sorted inputs,
distinct inputs, then `ignoreNullKeys` are unsupported) and build the operator
configuration.  Runs before any input batch is accepted. -/
def initializeOperator (node : AggregationNode V) (outputBatchSize : Nat)
    (truthy : V → Bool) : Except String (OpConfig V) :=
  match checkAggregates node.aggregates with
  | Except.error e => Except.error e
  | Except.ok () =>
    if node.ignoreNullKeys then
      Except.error "Streaming aggregation does not support ignoring null keys yet"
    else
      Except.ok
        { groupingKeys := node.groupingKeys,
          aggregates := node.aggregates.map fun a => { args := a.args, mask := a.mask },
          step := node.step,
          outputBatchSize := outputBatchSize,
          truthy := truthy }

/-- A full operator lifecycle: initialization, then (only if initialization
succeeded) the driver loop over the input batches. -/
def runOperator [DecidableEq V] (node : AggregationNode V) (outputBatchSize : Nat)
    (truthy : V → Bool) (batches : List (Batch V)) :
    Except String (List (List (OutRow V))) :=
  match initializeOperator node outputBatchSize truthy with
  | Except.error e => Except.error e
  | Except.ok cfg => Except.ok (runStream cfg batches)

/-! ## The reference group-by (specification side)

These definitions follow the spec's words ("one output row per maximal run of
equal-key rows, carrying that run's key tuple and aggregate values"); they are
the yardstick the streaming operator is compared against. -/

/-- The maximal runs of consecutive equal-key rows of a row sequence. -/
def runs [DecidableEq V] (groupingKeys : List Nat) : Batch V → List (Batch V)
  | [] => []
  | r :: rest =>
    let p := fun row => decide (keyOf groupingKeys row = keyOf groupingKeys r)
    (r :: rest.takeWhile p) :: runs groupingKeys (rest.dropWhile p)
termination_by l => l.length
decreasing_by
  simp only [List.length_cons]
  exact Nat.lt_succ_of_le (List.dropWhile_sublist p).length_le

/-- Reference accumulator of one aggregate over one run: the contributions of
the run's mask-passing rows, in row order. -/
def refContribs (cfg : OpConfig V) (agg : AggregateInfo V) (run : Batch V) :
    List (Contribution V) :=
  (run.filter fun row => maskPasses cfg agg row).map fun row =>
    (isRawInput cfg.step, argVals agg row)

/-- Reference output row of one run: the run's key tuple and, per aggregate in
descriptor order, its extracted accumulator. -/
def refOutRow (cfg : OpConfig V) (run : Batch V) : OutRow V :=
  { keys := keyOf cfg.groupingKeys (run.headD []),
    aggs := (List.range cfg.aggregates.length).map fun i =>
      (isPartialOutput cfg.step, refContribs cfg (cfg.aggregates.getD i default) run) }

/-- The reference group-by over a concatenated input: one output row per
maximal run of equal-key rows. -/
def referenceGroupBy [DecidableEq V] (cfg : OpConfig V) (rows : Batch V) :
    List (OutRow V) :=
  (runs cfg.groupingKeys rows).map (refOutRow cfg)

/-- All rows of one group are contiguous across the stream: once a maximal run
of some key ends, that key never recurs.  This is the consequence of the
"input non-decreasing on the grouping keys" precondition that the operator
relies on (spec invariant 1). -/
def keysContiguous [DecidableEq V] (groupingKeys : List Nat) : Batch V → Bool
  | [] => true
  | r :: rest =>
    let p := fun row => decide (keyOf groupingKeys row = keyOf groupingKeys r)
    (rest.dropWhile p).all (fun row => !p row) && keysContiguous groupingKeys (rest.dropWhile p)
termination_by l => l.length
decreasing_by
  simp only [List.length_cons]
  exact Nat.lt_succ_of_le (List.dropWhile_sublist p).length_le

/-- The distinct key tuples of a row sequence, in order of first encounter. -/
def distinctKeysInOrder [DecidableEq V] (groupingKeys : List Nat) :
    Batch V → List (KeyTuple V)
  | [] => []
  | r :: rest =>
    keyOf groupingKeys r ::
      distinctKeysInOrder groupingKeys
        (rest.filter fun row => !decide (keyOf groupingKeys row = keyOf groupingKeys r))
termination_by l => l.length
decreasing_by
  simp only [List.length_cons]
  exact Nat.lt_succ_of_le (List.filter_sublist rest).length_le

/-! ## Basic lemmas -/

theorem getD_mem_of_lt (l : List Nat) (n : Nat) (h : n < l.length) : l.getD n 0 ∈ l := by
  rw [List.getD_eq_getElem?_getD, List.getElem?_eq_getElem h]
  exact List.getElem_mem h

theorem range_map_getD {α : Type} (n r : Nat) (f : Nat → α) (d : α) (h : r < n) :
    ((List.range n).map f).getD r d = f r := by
  rw [List.getD_eq_getElem?_getD, List.getElem?_map, List.getElem?_range h]
  rfl

theorem createOutput_length (cfg : OpConfig V) (s : OpState V) (n : Nat) :
    (createOutput cfg s n).length = n := by
  simp [createOutput]

/-- The slot content produced by `startNewGroup` for the returned slot. -/
theorem startNewGroup_slot_content [DecidableEq V] (cfg : OpConfig V) (input : Batch V)
    (s : OpState V) (index : Nat) (hbound : ∀ g ∈ s.groups, g < s.rowData.length) :
    ((startNewGroup cfg input s index).2.rowData.getD (startNewGroup cfg input s index).1
        default) =
      ⟨keyOf cfg.groupingKeys (input.getD index []), List.replicate cfg.aggregates.length []⟩ := by
  by_cases h : s.numGroups < s.groups.length
  · have hg : s.groups.getD s.numGroups 0 < s.rowData.length :=
      hbound _ (getD_mem_of_lt _ _ h)
    simp only [startNewGroup, if_pos h, storeKeys, initializeRow]
    rw [List.getD_eq_getElem?_getD, List.getElem?_set_self (by simpa using hg)]
    simp only [Option.getD_some]
    congr 1
    rw [List.getD_eq_getElem?_getD, List.getElem?_set_self (by simpa using hg)]
    rfl
  · simp only [startNewGroup, if_neg h, storeKeys, newRow]
    rw [List.getD_eq_getElem?_getD,
      List.getElem?_set_self (by simp)]
    simp only [Option.getD_some]
    congr 1
    rw [List.getD_eq_getElem?_getD, List.getElem?_concat_length]
    rfl

/-! ## C5: startNewGroup -/

/-- **C5.** `startNewGroup(index)`: when `numGroups < groups.size()` it recycles
the slot pointer `groups[numGroups]` in place without allocating and leaves the
pointer vector unchanged; otherwise it allocates a fresh row (one more row in
the container) and appends it.  In both cases the slot receives the
grouping-key values of input row `index` (with freshly initialized
accumulators), `numGroups` grows by exactly one, and the returned slot pointer
is `groups[numGroups-1]` of the post-state. -/
theorem c5_startNewGroup [DecidableEq V] (cfg : OpConfig V) (input : Batch V)
    (s : OpState V) (index : Nat)
    (hbound : ∀ g ∈ s.groups, g < s.rowData.length) :
    (startNewGroup cfg input s index).2.numGroups = s.numGroups + 1
    ∧ (startNewGroup cfg input s index).2.groups.getD
        ((startNewGroup cfg input s index).2.numGroups - 1) 0 =
        (startNewGroup cfg input s index).1
    ∧ ((startNewGroup cfg input s index).2.rowData.getD
          (startNewGroup cfg input s index).1 default).keys =
        keyOf cfg.groupingKeys (input.getD index [])
    ∧ ((startNewGroup cfg input s index).2.rowData.getD
          (startNewGroup cfg input s index).1 default).accs =
        List.replicate cfg.aggregates.length []
    ∧ (s.numGroups < s.groups.length →
        (startNewGroup cfg input s index).1 = s.groups.getD s.numGroups 0
        ∧ (startNewGroup cfg input s index).2.rowData.length = s.rowData.length
        ∧ (startNewGroup cfg input s index).2.groups = s.groups)
    ∧ (s.groups.length ≤ s.numGroups →
        (startNewGroup cfg input s index).1 = s.rowData.length
        ∧ (startNewGroup cfg input s index).2.rowData.length = s.rowData.length + 1) := by
  have hcontent := startNewGroup_slot_content cfg input s index hbound
  by_cases h : s.numGroups < s.groups.length
  · refine ⟨by simp [startNewGroup, if_pos h], ?_, by rw [hcontent], by rw [hcontent],
      fun _ => ⟨by simp [startNewGroup, if_pos h], ?_, by simp [startNewGroup, if_pos h]⟩,
      fun hle => absurd h (by omega)⟩
    · simp only [startNewGroup, if_pos h, Nat.add_sub_cancel]
    · simp [startNewGroup, if_pos h, storeKeys, initializeRow]
  · have hlen : (resizeList s.groups (s.numGroups + 1) 0).length = s.numGroups + 1 := by
      simp only [resizeList, List.length_append, List.length_take, List.length_replicate]
      omega
    refine ⟨by simp [startNewGroup, if_neg h], ?_, by rw [hcontent], by rw [hcontent],
      fun hlt => absurd hlt h,
      fun _ => ⟨by simp [startNewGroup, if_neg h, newRow], ?_⟩⟩
    · simp only [startNewGroup, if_neg h, Nat.add_sub_cancel]
      rw [List.getD_eq_getElem?_getD, List.getElem?_set_self (by omega)]
      rfl
    · simp [startNewGroup, if_neg h, storeKeys, newRow]

/-! ## C9: createOutput layout -/

/-- **C9.** `createOutput(n)` returns a batch of exactly `n` rows; row `r`
carries the grouping-key tuple and, in descriptor order, the extracted
aggregate results of the group stored at slot `groups[r]` — so row order
within a batch equals group-open order, and the schema is key columns followed
by aggregate columns. -/
theorem c9_createOutput (cfg : OpConfig V) (s : OpState V) (n : Nat) :
    (createOutput cfg s n).length = n
    ∧ ∀ r, r < n →
        (createOutput cfg s n).getD r default =
          { keys := (s.rowData.getD (s.groups.getD r 0) default).keys,
            aggs := (List.range cfg.aggregates.length).map fun i =>
              (isPartialOutput cfg.step,
               (s.rowData.getD (s.groups.getD r 0) default).accs.getD i []) } := by
  refine ⟨createOutput_length cfg s n, fun r hr => ?_⟩
  unfold createOutput
  rw [range_map_getD _ _ _ _ hr]

/-! ## C8: mask selection -/

/-- **C8.** For each aggregate, the selectivity passed to its kernel update for
an input batch is the mask collaborator's mask-evaluated active-row set when
the aggregate has a mask column, and the full selection over all rows of the
batch when it has no mask. -/
theorem c8_mask_selection [DecidableEq V] (cfg : OpConfig V) (s : OpState V)
    (input : Batch V) (h : s.input = some input) (i : Nat)
    (hi : i < cfg.aggregates.length) :
    ((if isRawInput cfg.step then
        Event.addRawInput i (getSelectivityVector cfg i input (List.range input.length)) false
      else
        Event.addIntermediateResults i
          (getSelectivityVector cfg i input (List.range input.length)) false) ∈
        getOutputTrace cfg s)
    ∧ ((cfg.aggregates.getD i default).mask = none →
        getSelectivityVector cfg i input (List.range input.length) = List.range input.length)
    ∧ (∀ c, (cfg.aggregates.getD i default).mask = some c →
        activeRows cfg (cfg.aggregates.getD i default) input (List.range input.length) =
          some (getSelectivityVector cfg i input (List.range input.length))
        ∧ getSelectivityVector cfg i input (List.range input.length) =
            (List.range input.length).filter fun r =>
              maskPasses cfg (cfg.aggregates.getD i default) (input.getD r [])) := by
  refine ⟨?_, fun hmask => ?_, fun c hmask => ?_⟩
  · have hU : (if isRawInput cfg.step then
        Event.addRawInput i (getSelectivityVector cfg i input (List.range input.length)) false
      else
        Event.addIntermediateResults i
          (getSelectivityVector cfg i input (List.range input.length)) false) ∈
        updateEvents cfg input (List.range input.length) := by
      unfold updateEvents
      exact List.mem_map.2 ⟨i, List.mem_range.2 hi, rfl⟩
    simp only [getOutputTrace, getOutput, h, List.mem_append]
    exact Or.inl (Or.inr hU)
  · simp only [getSelectivityVector, activeRows, hmask]
  · simp only [getSelectivityVector, activeRows, hmask, maskPasses]
    exact ⟨trivial, trivial⟩

/-! ## Witness fixtures -/

/-- A small concrete configuration for witnesses: key channel 0, a maskless
aggregate over channel 1 and a masked aggregate (mask channel 2), partial
step, output batch target 2. -/
def wCfg : OpConfig Nat :=
  { groupingKeys := [0],
    aggregates := [⟨[ArgSource.channel 1], none⟩, ⟨[ArgSource.channel 1], some 2⟩],
    step := Step.kPartial,
    outputBatchSize := 2,
    truthy := fun v => decide (0 < v) }

/-- A concrete input batch: five rows, four key runs. -/
def wBatch : Batch Nat := [[1, 10, 1], [1, 20, 0], [2, 30, 1], [3, 40, 1], [4, 50, 0]]

/-- The initial state with `wBatch` pending. -/
def wPending : OpState Nat := addInput initialState wBatch

theorem c5_startNewGroup_witness :
    (∀ g ∈ (initialState (V := Nat)).groups, g < (initialState (V := Nat)).rowData.length)
    ∧ (startNewGroup wCfg wBatch initialState 0).2.numGroups =
        (initialState (V := Nat)).numGroups + 1 :=
  ⟨by decide, (c5_startNewGroup wCfg wBatch initialState 0 (by decide)).1⟩

theorem c9_createOutput_witness :
    1 < 2 ∧
    (createOutput wCfg (initialState (V := Nat)) 2).getD 1 default =
      { keys := ((initialState (V := Nat)).rowData.getD
          ((initialState (V := Nat)).groups.getD 1 0) default).keys,
        aggs := (List.range wCfg.aggregates.length).map fun i =>
          (isPartialOutput wCfg.step,
           ((initialState (V := Nat)).rowData.getD
              ((initialState (V := Nat)).groups.getD 1 0) default).accs.getD i []) } :=
  ⟨by decide, (c9_createOutput wCfg (initialState (V := Nat)) 2).2 1 (by decide)⟩

theorem c8_mask_selection_witness :
    (wPending.input = some wBatch ∧ 1 < wCfg.aggregates.length)
    ∧ (∀ c, (wCfg.aggregates.getD 1 default).mask = some c →
        activeRows wCfg (wCfg.aggregates.getD 1 default) wBatch
            (List.range wBatch.length) =
          some (getSelectivityVector wCfg 1 wBatch (List.range wBatch.length))
        ∧ getSelectivityVector wCfg 1 wBatch (List.range wBatch.length) =
            (List.range wBatch.length).filter fun r =>
              maskPasses wCfg (wCfg.aggregates.getD 1 default) (wBatch.getD r [])) :=
  ⟨⟨rfl, by decide⟩, (c8_mask_selection wCfg wPending wBatch rfl 1 (by decide)).2.2⟩

/-! ## C2: batch sizing -/

/-- **C2.** When processing a pending input, a batch is emitted iff
`numGroups > outputBatchSize` holds after the input is processed, and every
such batch has exactly `outputBatchSize` rows; the terminal flush (`getOutput`
with no pending input, `noMoreInput` set and `numGroups > 0`) emits exactly
`numGroups` rows in a single batch regardless of the target and resets
`numGroups` to 0. -/
theorem c2_batch_sizing [DecidableEq V] (cfg : OpConfig V) (s : OpState V) :
    (∀ input, s.input = some input →
      ((getOutputResult cfg s).isSome = true ↔
        cfg.outputBatchSize < (assignGroups cfg input s).2.numGroups)
      ∧ ∀ o, getOutputResult cfg s = some o → o.length = cfg.outputBatchSize)
    ∧ (s.input = none → s.noMoreInput = true → 0 < s.numGroups →
      ∃ o, getOutputResult cfg s = some o ∧ o.length = s.numGroups
        ∧ (getOutputState cfg s).numGroups = 0) := by
  constructor
  · intro input h
    by_cases hlt : cfg.outputBatchSize < (assignGroups cfg input s).2.numGroups
    · constructor
      · simp only [getOutputResult, getOutput, h, if_pos hlt, Option.isSome_some, true_iff]
        exact hlt
      · intro o ho
        simp only [getOutputResult, getOutput, h, if_pos hlt, Option.some.injEq] at ho
        rw [← ho, createOutput_length]
    · constructor
      · simp only [getOutputResult, getOutput, h, if_neg hlt, Option.isSome_none]
        simpa using hlt
      · intro o ho
        simp only [getOutputResult, getOutput, h, if_neg hlt] at ho
        exact absurd ho (by simp)
  · intro hnone hnmi hpos
    refine ⟨createOutput cfg s s.numGroups, ?_, createOutput_length cfg s s.numGroups, ?_⟩
    · simp [getOutputResult, getOutput, hnone, hnmi, hpos]
    · simp [getOutputState, getOutput, hnone, hnmi, hpos]

theorem c2_batch_sizing_witness :
    wPending.input = some wBatch
    ∧ (((getOutputResult wCfg wPending).isSome = true ↔
          wCfg.outputBatchSize < (assignGroups wCfg wBatch wPending).2.numGroups)
        ∧ ∀ o, getOutputResult wCfg wPending = some o → o.length = wCfg.outputBatchSize) :=
  ⟨rfl, (c2_batch_sizing wCfg wPending).1 wBatch rfl⟩

/-! ## C4: rotation after a partial emission -/

/-- **C4.** After a partial emission of `n = outputBatchSize` rows (triggered
by `numGroups > outputBatchSize`), the slot pointer vector is a permutation of
its previous contents in which the still-live slots previously at positions
`[n, numGroups)` occupy positions `[0, numGroups-n)` and the `n` just-emitted
slots sit in the free region at the end; `numGroups` decreases by exactly `n`,
and the straddling last open group is again at position `numGroups-1`. -/
theorem c4_rotation [DecidableEq V] (cfg : OpConfig V) (s : OpState V) (input : Batch V)
    (h : s.input = some input)
    (hemit : cfg.outputBatchSize < (assignGroups cfg input s).2.numGroups)
    (hle : (assignGroups cfg input s).2.numGroups ≤
      (assignGroups cfg input s).2.groups.length) :
    (getOutputState cfg s).groups =
      (assignGroups cfg input s).2.groups.drop cfg.outputBatchSize ++
        (assignGroups cfg input s).2.groups.take cfg.outputBatchSize
    ∧ (getOutputState cfg s).groups.Perm (assignGroups cfg input s).2.groups
    ∧ (∀ t, t < (assignGroups cfg input s).2.numGroups - cfg.outputBatchSize →
        (getOutputState cfg s).groups[t]? =
          (assignGroups cfg input s).2.groups[cfg.outputBatchSize + t]?)
    ∧ (∀ t, t < cfg.outputBatchSize →
        (getOutputState cfg s).groups[(assignGroups cfg input s).2.groups.length -
          cfg.outputBatchSize + t]? = (assignGroups cfg input s).2.groups[t]?)
    ∧ (getOutputState cfg s).numGroups =
        (assignGroups cfg input s).2.numGroups - cfg.outputBatchSize
    ∧ (getOutputState cfg s).groups[(getOutputState cfg s).numGroups - 1]? =
        (assignGroups cfg input s).2.groups[(assignGroups cfg input s).2.numGroups - 1]? := by
  have hG : (getOutputState cfg s).groups =
      (assignGroups cfg input s).2.groups.drop cfg.outputBatchSize ++
        (assignGroups cfg input s).2.groups.take cfg.outputBatchSize := by
    simp only [getOutputState, getOutput, h, if_pos hemit]
  have hN : (getOutputState cfg s).numGroups =
      (assignGroups cfg input s).2.numGroups - cfg.outputBatchSize := by
    simp only [getOutputState, getOutput, h, if_pos hemit]
  have hoblen : cfg.outputBatchSize ≤ (assignGroups cfg input s).2.groups.length := by
    omega
  have hdroplen : ((assignGroups cfg input s).2.groups.drop cfg.outputBatchSize).length =
      (assignGroups cfg input s).2.groups.length - cfg.outputBatchSize := by
    simp
  refine ⟨hG, ?_, ?_, ?_, hN, ?_⟩
  · rw [hG]
    exact List.perm_append_comm.trans (by rw [List.take_append_drop])
  · intro t ht
    rw [hG, List.getElem?_append_left (by simp only [List.length_drop]; omega), List.getElem?_drop]
  · intro t ht
    rw [hG]
    rw [List.getElem?_append_right (by simp only [List.length_drop]; omega)]
    rw [hdroplen]
    have : (assignGroups cfg input s).2.groups.length - cfg.outputBatchSize + t -
        ((assignGroups cfg input s).2.groups.length - cfg.outputBatchSize) = t := by omega
    rw [this, List.getElem?_take]
    simp [ht]
  · rw [hG, hN, List.getElem?_append_left (by simp only [List.length_drop]; omega), List.getElem?_drop]
    congr 1
    omega

theorem c4_rotation_witness :
    (wPending.input = some wBatch
      ∧ wCfg.outputBatchSize < (assignGroups wCfg wBatch wPending).2.numGroups
      ∧ (assignGroups wCfg wBatch wPending).2.numGroups ≤
          (assignGroups wCfg wBatch wPending).2.groups.length)
    ∧ (getOutputState wCfg wPending).numGroups =
        (assignGroups wCfg wBatch wPending).2.numGroups - wCfg.outputBatchSize :=
  ⟨⟨rfl, by decide, by decide⟩,
    (c4_rotation wCfg wPending wBatch rfl (by decide) (by decide)).2.2.2.2.1⟩

/-! ## C6: unsupported feature rejection -/

theorem checkAggregates_ok_iff (aggs : List (PlanAggregate V)) :
    checkAggregates aggs = Except.ok () ↔
      ∀ a ∈ aggs, a.sortingKeys = [] ∧ a.distinct = false := by
  induction aggs with
  | nil => simp [checkAggregates]
  | cons agg rest ih =>
    unfold checkAggregates
    by_cases hs : agg.sortingKeys = []
    · rw [if_neg (fun hne => hne hs)]
      by_cases hd : agg.distinct = true
      · rw [if_pos hd]
        constructor
        · intro h
          exact absurd h (by simp)
        · intro hall
          have := (hall agg (List.mem_cons_self agg rest)).2
          rw [hd] at this
          exact absurd this (by simp)
      · have hd' : agg.distinct = false := by
          revert hd; cases agg.distinct <;> simp
        rw [if_neg hd, ih]
        constructor
        · intro hall a ha
          rcases List.mem_cons.1 ha with rfl | ha
          · exact ⟨hs, hd'⟩
          · exact hall a ha
        · intro hall a ha
          exact hall a (List.mem_cons_of_mem _ ha)
    · rw [if_pos hs]
      constructor
      · intro h
        exact absurd h (by simp)
      · intro hall
        exact absurd (hall agg (List.mem_cons_self agg rest)).1 hs

theorem initializeOperator_error_runOperator [DecidableEq V] (node : AggregationNode V)
    (ob : Nat) (tr : V → Bool) (e : String)
    (h : initializeOperator node ob tr = Except.error e) (batches : List (Batch V)) :
    runOperator node ob tr batches = Except.error e := by
  simp [runOperator, h]

/-- **C6.** Requesting an aggregate over sorted inputs, an aggregate with the
distinct modifier, or `ignoreNullKeys` makes initialization fail with an
unsupported-feature error, before any input batch is accepted or processed
(the whole operator run errors without producing output); initialization
succeeds when none of the three is requested. -/
theorem c6_unsupported_features [DecidableEq V] (node : AggregationNode V) (ob : Nat)
    (tr : V → Bool) :
    ((∃ a ∈ node.aggregates, a.sortingKeys ≠ [] ∨ a.distinct = true)
        ∨ node.ignoreNullKeys = true →
      ∃ e, initializeOperator node ob tr = Except.error e
        ∧ ∀ batches, runOperator node ob tr batches = Except.error e)
    ∧ ((∀ a ∈ node.aggregates, a.sortingKeys = [] ∧ a.distinct = false) →
        node.ignoreNullKeys = false →
        ∃ cfg, initializeOperator node ob tr = Except.ok cfg) := by
  constructor
  · intro hbad
    cases hc : checkAggregates node.aggregates with
    | error e =>
      refine ⟨e, ?_, fun batches => ?_⟩
      · simp [initializeOperator, hc]
      · exact initializeOperator_error_runOperator node ob tr e (by simp [initializeOperator, hc])
          batches
    | ok u =>
      cases u
      have hall := (checkAggregates_ok_iff node.aggregates).1 hc
      rcases hbad with ⟨a, ha, hbad⟩ | hign
      · rcases hbad with hsort | hdist
        · exact absurd (hall a ha).1 hsort
        · rw [(hall a ha).2] at hdist
          exact absurd hdist (by simp)
      · refine ⟨"Streaming aggregation does not support ignoring null keys yet", ?_, fun batches => ?_⟩
        · simp [initializeOperator, hc, hign]
        · exact initializeOperator_error_runOperator node ob tr _
            (by simp [initializeOperator, hc, hign]) batches
  · intro hall hign
    have hc : checkAggregates node.aggregates = Except.ok () :=
      (checkAggregates_ok_iff node.aggregates).2 hall
    exact ⟨{ groupingKeys := node.groupingKeys,
             aggregates := node.aggregates.map fun a => { args := a.args, mask := a.mask },
             step := node.step, outputBatchSize := ob, truthy := tr },
      by simp [initializeOperator, hc, hign]⟩

/-- A plan node requesting a distinct-input aggregate. -/
def wBadNode : AggregationNode Nat :=
  { groupingKeys := [0],
    aggregates := [⟨[], true, [ArgSource.channel 1], none⟩],
    step := Step.kSingle,
    ignoreNullKeys := false }

/-- A concrete truthiness predicate for witnesses. -/
def wTruthy : Nat → Bool := fun v => decide (0 < v)

theorem c6_unsupported_features_witness :
    ((∃ a ∈ wBadNode.aggregates, a.sortingKeys ≠ [] ∨ a.distinct = true)
        ∨ wBadNode.ignoreNullKeys = true)
    ∧ ∃ e, initializeOperator wBadNode 8 wTruthy = Except.error e
        ∧ ∀ batches, runOperator wBadNode 8 wTruthy batches = Except.error e :=
  ⟨by decide, (c6_unsupported_features wBadNode 8 wTruthy).1 (by decide)⟩

/-! ## C7: step-directed dispatch -/

theorem createOutput_cells (cfg : OpConfig V) (s : OpState V) (n : Nat) :
    ∀ r ∈ createOutput cfg s n, ∀ x ∈ r.aggs, x.1 = isPartialOutput cfg.step := by
  intro r hr x hx
  unfold createOutput at hr
  rcases List.mem_map.1 hr with ⟨j, _, rfl⟩
  rcases List.mem_map.1 hx with ⟨i, _, rfl⟩
  rfl

theorem getOutputTrace_cases [DecidableEq V] (cfg : OpConfig V) (s : OpState V)
    (e : Event V) (he : e ∈ getOutputTrace cfg s) :
    (∃ r g, e = Event.assignRow r g)
    ∨ (∃ i g, e = Event.initNewGroups i g)
    ∨ (∃ i rows, e = if isRawInput cfg.step then Event.addRawInput i rows false
        else Event.addIntermediateResults i rows false)
    ∨ (∃ i n, e = if isPartialOutput cfg.step then Event.extractAccumulators i n
        else Event.extractValues i n) := by
  cases hs : s.input with
  | none =>
    simp only [getOutputTrace, getOutput, hs] at he
    split at he
    · unfold extractEvents at he
      rcases List.mem_map.1 he with ⟨i, _, rfl⟩
      exact Or.inr (Or.inr (Or.inr ⟨i, _, rfl⟩))
    · cases he
  | some input =>
    simp only [getOutputTrace, getOutput, hs, List.mem_append] at he
    rcases he with ((hA | hI) | hU) | hE
    · rcases List.mem_map.1 hA with ⟨p, _, rfl⟩
      exact Or.inl ⟨p.1, p.2, rfl⟩
    · rcases List.mem_map.1 hI with ⟨i, _, rfl⟩
      exact Or.inr (Or.inl ⟨i, _, rfl⟩)
    · unfold updateEvents at hU
      rcases List.mem_map.1 hU with ⟨i, _, rfl⟩
      exact Or.inr (Or.inr (Or.inl ⟨i, _, rfl⟩))
    · split at hE
      · unfold extractEvents at hE
        rcases List.mem_map.1 hE with ⟨i, _, rfl⟩
        exact Or.inr (Or.inr (Or.inr ⟨i, _, rfl⟩))
      · cases hE

/-- **C7.** The step determines both paths: kernel updates go through
`addRawInput` exactly when the step is raw-input (partial or single) and
through `addIntermediateResults` otherwise, always with the push-down flag
`false`; output aggregate columns are extracted with `extractAccumulators`
exactly when the step is partial-output (partial or intermediate) and with
`extractValues` otherwise. -/
theorem c7_step_dispatch [DecidableEq V] (cfg : OpConfig V) (s : OpState V) :
    (∀ i rows b, Event.addRawInput i rows b ∈ getOutputTrace cfg s →
        isRawInput cfg.step = true ∧ b = false)
    ∧ (∀ i rows b, Event.addIntermediateResults i rows b ∈ getOutputTrace cfg s →
        isRawInput cfg.step = false ∧ b = false)
    ∧ (∀ i n, Event.extractValues i n ∈ getOutputTrace cfg s →
        isPartialOutput cfg.step = false)
    ∧ (∀ i n, Event.extractAccumulators i n ∈ getOutputTrace cfg s →
        isPartialOutput cfg.step = true)
    ∧ (∀ o, getOutputResult cfg s = some o →
        ∀ r ∈ o, ∀ x ∈ r.aggs, x.1 = isPartialOutput cfg.step) := by
  refine ⟨?_, ?_, ?_, ?_, ?_⟩
  · intro i rows b hm
    rcases getOutputTrace_cases cfg s _ hm with ⟨r, g, he⟩ | ⟨j, g, he⟩ | ⟨j, rs, he⟩ |
      ⟨j, nn, he⟩
    · exact absurd he (by simp)
    · exact absurd he (by simp)
    · by_cases hr : isRawInput cfg.step
      · rw [if_pos hr] at he
        obtain ⟨-, -, rfl⟩ := Event.addRawInput.inj he
        exact ⟨hr, rfl⟩
      · rw [if_neg hr] at he
        exact absurd he (by simp)
    · by_cases hp : isPartialOutput cfg.step
      · rw [if_pos hp] at he
        exact absurd he (by simp)
      · rw [if_neg hp] at he
        exact absurd he (by simp)
  · intro i rows b hm
    rcases getOutputTrace_cases cfg s _ hm with ⟨r, g, he⟩ | ⟨j, g, he⟩ | ⟨j, rs, he⟩ |
      ⟨j, nn, he⟩
    · exact absurd he (by simp)
    · exact absurd he (by simp)
    · by_cases hr : isRawInput cfg.step
      · rw [if_pos hr] at he
        exact absurd he (by simp)
      · rw [if_neg hr] at he
        obtain ⟨-, -, rfl⟩ := Event.addIntermediateResults.inj he
        exact ⟨by simpa using hr, rfl⟩
    · by_cases hp : isPartialOutput cfg.step
      · rw [if_pos hp] at he
        exact absurd he (by simp)
      · rw [if_neg hp] at he
        exact absurd he (by simp)
  · intro i n hm
    rcases getOutputTrace_cases cfg s _ hm with ⟨r, g, he⟩ | ⟨j, g, he⟩ | ⟨j, rs, he⟩ |
      ⟨j, nn, he⟩
    · exact absurd he (by simp)
    · exact absurd he (by simp)
    · by_cases hr : isRawInput cfg.step
      · rw [if_pos hr] at he
        exact absurd he (by simp)
      · rw [if_neg hr] at he
        exact absurd he (by simp)
    · by_cases hp : isPartialOutput cfg.step
      · rw [if_pos hp] at he
        exact absurd he (by simp)
      · rw [if_neg hp] at he
        simpa using hp
  · intro i n hm
    rcases getOutputTrace_cases cfg s _ hm with ⟨r, g, he⟩ | ⟨j, g, he⟩ | ⟨j, rs, he⟩ |
      ⟨j, nn, he⟩
    · exact absurd he (by simp)
    · exact absurd he (by simp)
    · by_cases hr : isRawInput cfg.step
      · rw [if_pos hr] at he
        exact absurd he (by simp)
      · rw [if_neg hr] at he
        exact absurd he (by simp)
    · by_cases hp : isPartialOutput cfg.step
      · exact hp
      · rw [if_neg hp] at he
        exact absurd he (by simp)
  · intro o ho
    cases hs : s.input with
    | none =>
      simp only [getOutputResult, getOutput, hs] at ho
      split at ho
      · obtain rfl := (Option.some.inj ho).symm
        exact createOutput_cells cfg s s.numGroups
      · exact absurd ho (by simp)
    | some input =>
      simp only [getOutputResult, getOutput, hs] at ho
      split at ho
      · obtain rfl := (Option.some.inj ho).symm
        exact createOutput_cells cfg _ cfg.outputBatchSize
      · exact absurd ho (by simp)

theorem c7_step_dispatch_witness :
    (Event.addRawInput 0
        (getSelectivityVector wCfg 0 wBatch (List.range wBatch.length)) false ∈
        getOutputTrace wCfg wPending)
    ∧ (isRawInput wCfg.step = true ∧ false = false) :=
  ⟨by decide,
    (c7_step_dispatch wCfg wPending).1 0
      (getSelectivityVector wCfg 0 wBatch (List.range wBatch.length)) false (by decide)⟩

/-! ## C3: initialization of new groups precedes their first update -/

theorem assignLoop_fst_length [DecidableEq V] (cfg : OpConfig V) (input : Batch V)
    (L : List Nat) : ∀ (s : OpState V) (index curGroup : Nat),
    (assignLoop cfg input s index curGroup L).1.length = L.length := by
  induction L with
  | nil => intro s index curGroup; rfl
  | cons i rest ih =>
    intro s index curGroup
    by_cases h : equalKeys cfg.groupingKeys input index input i = true
    · simp [assignLoop, h, ih]
    · simp [assignLoop, h, ih]

theorem assignGroups_fst_length [DecidableEq V] (cfg : OpConfig V) (input : Batch V)
    (s : OpState V) : (assignGroups cfg input s).1.length = input.length := by
  unfold assignGroups
  cases hp : s.prevInput with
  | none =>
    by_cases h : 0 < input.length
    · simp only [h, if_pos, List.length_append, List.length_nil, List.length_replicate,
        List.length_cons, assignLoop_fst_length, List.length_drop, List.length_range]
      omega
    · simp only [if_neg h, List.length_nil]
      omega
  | some prev =>
    have hcle : ((List.range input.length).takeWhile fun i =>
        equalKeys cfg.groupingKeys prev (prev.length - 1) input i).length ≤ input.length := by
      have h1 := (List.takeWhile_sublist (l := List.range input.length)
        (fun i => equalKeys cfg.groupingKeys prev (prev.length - 1) input i)).length_le
      simpa using h1
    by_cases h : ((List.range input.length).takeWhile fun i =>
        equalKeys cfg.groupingKeys prev (prev.length - 1) input i).length < input.length
    · simp only [h, if_pos, List.length_append, List.length_replicate, List.length_cons,
        assignLoop_fst_length, List.length_drop, List.length_range]
      omega
    · simp only [if_neg h, List.length_replicate]
      omega

theorem countP_init_updateEvents [DecidableEq V] (cfg : OpConfig V) (input : Batch V)
    (inputRows : List Nat) (i : Nat) :
    (updateEvents cfg input inputRows).countP
      (fun e => match e with | Event.initNewGroups j _ => j == i | _ => false) = 0 := by
  rw [List.countP_eq_zero]
  intro e he
  rcases List.mem_map.1 he with ⟨j, _, rfl⟩
  by_cases hr : isRawInput cfg.step <;> simp [hr]

theorem countP_init_extractEvents (cfg : OpConfig V) (n : Nat) (i : Nat) :
    (extractEvents cfg n).countP
      (fun e => match e with | Event.initNewGroups j _ => j == i | _ => false) = 0 := by
  rw [List.countP_eq_zero]
  intro e he
  rcases List.mem_map.1 he with ⟨j, _, rfl⟩
  by_cases hp : isPartialOutput cfg.step <;> simp [hp]

/-- **C3.** For every processed input batch: the collaborator-call trace splits
into the row assignments, then (for each aggregate, in order) exactly one
`initializeNewGroups` call whose payload is exactly the slot index range
`[prevNumGroups, numGroups)` newly opened by this batch, then the per-aggregate
kernel update calls, then any extraction calls — so every row is assigned
before any initialization, and every slot opened by the batch is initialized
before the batch's update call for the same aggregate reaches the kernel. -/
theorem c3_init_before_update [DecidableEq V] (cfg : OpConfig V) (s : OpState V)
    (input : Batch V) (h : s.input = some input) :
    ∃ tA tE,
      getOutputTrace cfg s =
        tA ++ ((List.range cfg.aggregates.length).map fun i =>
            Event.initNewGroups i (List.range' s.numGroups
              ((assignGroups cfg input s).2.numGroups - s.numGroups)))
          ++ updateEvents cfg input (List.range input.length) ++ tE
      ∧ (∀ e ∈ tA, ∃ r g, e = Event.assignRow r g)
      ∧ tA.length = input.length
      ∧ (∀ e ∈ tE, ∃ i n, e = Event.extractValues i n ∨ e = Event.extractAccumulators i n)
      ∧ (∀ i, i < cfg.aggregates.length →
          (getOutputTrace cfg s).countP
            (fun e => match e with | Event.initNewGroups j _ => j == i | _ => false) = 1) := by
  refine ⟨(assignGroups cfg input s).1.enum.map fun p => Event.assignRow p.1 p.2,
    (match (getOutput cfg s).1 with
      | some _ => extractEvents cfg cfg.outputBatchSize
      | none => []), ?_, ?_, ?_, ?_, ?_⟩
  · simp only [getOutputTrace, getOutput, h]
  · intro e he
    rcases List.mem_map.1 he with ⟨p, _, rfl⟩
    exact ⟨p.1, p.2, rfl⟩
  · rw [List.length_map, List.enum_length, assignGroups_fst_length]
  · intro e he
    split at he
    · rcases List.mem_map.1 he with ⟨i, _, rfl⟩
      by_cases hp : isPartialOutput cfg.step
      · rw [if_pos hp]
        exact ⟨i, _, Or.inr rfl⟩
      · rw [if_neg hp]
        exact ⟨i, _, Or.inl rfl⟩
    · cases he
  · intro i hi
    have htr : getOutputTrace cfg s =
        ((assignGroups cfg input s).1.enum.map fun p => Event.assignRow p.1 p.2)
          ++ ((List.range cfg.aggregates.length).map fun j =>
              Event.initNewGroups j (List.range' s.numGroups
                ((assignGroups cfg input s).2.numGroups - s.numGroups)))
          ++ updateEvents cfg input (List.range input.length)
          ++ (match (getOutput cfg s).1 with
              | some _ => extractEvents cfg cfg.outputBatchSize
              | none => []) := by
      simp only [getOutputTrace, getOutput, h]
    rw [htr, List.countP_append, List.countP_append, List.countP_append]
    have hA : ((assignGroups cfg input s).1.enum.map fun p =>
        Event.assignRow (V := V) p.1 p.2).countP
          (fun e => match e with | Event.initNewGroups j _ => j == i | _ => false) = 0 := by
      rw [List.countP_eq_zero]
      intro e he
      rcases List.mem_map.1 he with ⟨p, _, rfl⟩
      simp
    have hI : ((List.range cfg.aggregates.length).map fun j =>
        Event.initNewGroups (V := V) j (List.range' s.numGroups
          ((assignGroups cfg input s).2.numGroups - s.numGroups))).countP
          (fun e => match e with | Event.initNewGroups j _ => j == i | _ => false) = 1 := by
      rw [List.countP_map]
      have : ((fun e => match e with | Event.initNewGroups j _ => j == i | _ => false) ∘
          (fun j => Event.initNewGroups (V := V) j (List.range' s.numGroups
            ((assignGroups cfg input s).2.numGroups - s.numGroups)))) =
          fun j => j == i := rfl
      rw [this]
      have : List.countP (fun j => j == i) (List.range cfg.aggregates.length) =
          List.count i (List.range cfg.aggregates.length) := rfl
      rw [this]
      exact List.count_eq_one_of_mem (List.nodup_range cfg.aggregates.length)
        (List.mem_range.2 hi)
    have hE : ∀ (o : Option (List (OutRow V))), List.countP (α := Event V)
          (fun e => match e with | Event.initNewGroups j _ => j == i | _ => false)
          (match o with
            | some _ => extractEvents cfg cfg.outputBatchSize
            | none => []) = 0 := by
      intro o
      cases o
      · rfl
      · exact countP_init_extractEvents cfg cfg.outputBatchSize i
    rw [hA]
    rw [hI]
    rw [countP_init_updateEvents cfg input (List.range input.length) i]
    rw [hE ((getOutput cfg s).1)]

theorem c3_init_before_update_witness :
    wPending.input = some wBatch
    ∧ ∃ tA tE,
        getOutputTrace wCfg wPending =
          tA ++ ((List.range wCfg.aggregates.length).map fun i =>
              Event.initNewGroups i (List.range' wPending.numGroups
                ((assignGroups wCfg wBatch wPending).2.numGroups - wPending.numGroups)))
            ++ updateEvents wCfg wBatch (List.range wBatch.length) ++ tE
        ∧ (∀ e ∈ tA, ∃ r g, e = Event.assignRow r g)
        ∧ tA.length = wBatch.length
        ∧ (∀ e ∈ tE, ∃ i n, e = Event.extractValues i n ∨ e = Event.extractAccumulators i n)
        ∧ (∀ i, i < wCfg.aggregates.length →
            (getOutputTrace wCfg wPending).countP
              (fun e => match e with | Event.initNewGroups j _ => j == i | _ => false) = 1) :=
  ⟨rfl, c3_init_before_update wCfg wPending wBatch rfl⟩

/-! ## C10: the seam read is in bounds in every reachable state -/

theorem startNewGroup_numGroups [DecidableEq V] (cfg : OpConfig V) (input : Batch V)
    (s : OpState V) (index : Nat) (h : s.numGroups ≤ s.groups.length) :
    (startNewGroup cfg input s index).2.numGroups = s.numGroups + 1
    ∧ (startNewGroup cfg input s index).2.numGroups ≤
        (startNewGroup cfg input s index).2.groups.length := by
  by_cases hlt : s.numGroups < s.groups.length
  · refine ⟨by simp [startNewGroup, hlt], ?_⟩
    simp only [startNewGroup, if_pos hlt]
    omega
  · refine ⟨by simp [startNewGroup, hlt], ?_⟩
    simp only [startNewGroup, if_neg hlt, List.length_set, resizeList, List.length_append,
      List.length_take, List.length_replicate]
    omega

theorem assignLoop_numGroups [DecidableEq V] (cfg : OpConfig V) (input : Batch V)
    (L : List Nat) : ∀ (s : OpState V) (index curGroup : Nat),
    s.numGroups ≤ s.groups.length →
    s.numGroups ≤ (assignLoop cfg input s index curGroup L).2.numGroups
    ∧ (assignLoop cfg input s index curGroup L).2.numGroups ≤
        (assignLoop cfg input s index curGroup L).2.groups.length := by
  induction L with
  | nil =>
    intro s index curGroup h
    exact ⟨le_refl _, h⟩
  | cons i rest ih =>
    intro s index curGroup h
    by_cases he : equalKeys cfg.groupingKeys input index input i = true
    · simpa [assignLoop, he] using ih s index curGroup h
    · have hs := startNewGroup_numGroups cfg input s i h
      have hl := ih (startNewGroup cfg input s i).2 i (startNewGroup cfg input s i).1 hs.2
      simp only [assignLoop, if_neg he]
      exact ⟨by omega, hl.2⟩

theorem assignGroups_numGroups [DecidableEq V] (cfg : OpConfig V) (input : Batch V)
    (s : OpState V) (h : s.numGroups ≤ s.groups.length) :
    s.numGroups ≤ (assignGroups cfg input s).2.numGroups
    ∧ (assignGroups cfg input s).2.numGroups ≤ (assignGroups cfg input s).2.groups.length
    ∧ (input ≠ [] → s.prevInput = none → 1 ≤ (assignGroups cfg input s).2.numGroups) := by
  unfold assignGroups
  cases hp : s.prevInput with
  | none =>
    by_cases hlt : (0 : Nat) < input.length
    · simp only [if_pos hlt]
      have hs := startNewGroup_numGroups cfg input s 0 h
      have hl := assignLoop_numGroups cfg input ((List.range input.length).drop (0 + 1))
        (startNewGroup cfg input s 0).2 0 (startNewGroup cfg input s 0).1 hs.2
      exact ⟨by omega, hl.2, fun _ _ => by omega⟩
    · simp only [if_neg hlt]
      have hzero : input = [] := by
        cases input with
        | nil => rfl
        | cons a l => exact absurd (by simp) hlt
      exact ⟨le_refl _, h, fun hne _ => absurd hzero hne⟩
  | some prev =>
    by_cases hlt : ((List.range input.length).takeWhile fun i =>
        equalKeys cfg.groupingKeys prev (prev.length - 1) input i).length < input.length
    · simp only [if_pos hlt]
      have hs := startNewGroup_numGroups cfg input s
        ((List.range input.length).takeWhile fun i =>
          equalKeys cfg.groupingKeys prev (prev.length - 1) input i).length h
      have hl := assignLoop_numGroups cfg input
        ((List.range input.length).drop
          (((List.range input.length).takeWhile fun i =>
            equalKeys cfg.groupingKeys prev (prev.length - 1) input i).length + 1))
        (startNewGroup cfg input s
          ((List.range input.length).takeWhile fun i =>
            equalKeys cfg.groupingKeys prev (prev.length - 1) input i).length).2
        ((List.range input.length).takeWhile fun i =>
          equalKeys cfg.groupingKeys prev (prev.length - 1) input i).length
        (startNewGroup cfg input s
          ((List.range input.length).takeWhile fun i =>
            equalKeys cfg.groupingKeys prev (prev.length - 1) input i).length).1 hs.2
      exact ⟨by omega, hl.2, fun _ hnone => Option.noConfusion hnone⟩
    · simp only [if_neg hlt]
      exact ⟨le_refl _, h, fun _ hnone => Option.noConfusion hnone⟩

theorem getOutput_process_inv [DecidableEq V] (cfg : OpConfig V) (s : OpState V)
    (b : Batch V) (hb : b ≠ []) (hJ1 : s.numGroups ≤ s.groups.length)
    (hJ2 : s.prevInput ≠ none → 1 ≤ s.numGroups) :
    (getOutputState cfg (addInput s b)).input = none
    ∧ (getOutputState cfg (addInput s b)).prevInput = some b
    ∧ (getOutputState cfg (addInput s b)).numGroups ≤
        (getOutputState cfg (addInput s b)).groups.length
    ∧ 1 ≤ (getOutputState cfg (addInput s b)).numGroups := by
  have hmono := assignGroups_numGroups cfg b (addInput s b) hJ1
  have h1 : 1 ≤ (assignGroups cfg b (addInput s b)).2.numGroups := by
    cases hp : s.prevInput with
    | none => exact hmono.2.2 hb hp
    | some prev =>
      exact le_trans (hJ2 (by rw [hp]; exact fun hcon => Option.noConfusion hcon)) hmono.1
  have hin : (addInput s b).input = some b := rfl
  by_cases hemit : cfg.outputBatchSize < (assignGroups cfg b (addInput s b)).2.numGroups
  · have hoble : cfg.outputBatchSize ≤ (assignGroups cfg b (addInput s b)).2.groups.length := by
      have := hmono.2.1
      omega
    refine ⟨?_, ?_, ?_, ?_⟩ <;>
      simp only [getOutputState, getOutput, hin, if_pos hemit, List.length_append,
        List.length_drop, List.length_take, Nat.min_eq_left hoble]
    · omega
    · omega
  · refine ⟨?_, ?_, ?_, ?_⟩ <;>
      simp only [getOutputState, getOutput, hin, if_neg hemit]
    · exact hmono.2.1
    · exact h1

theorem runBatches_inv [DecidableEq V] (cfg : OpConfig V) (batches : List (Batch V)) :
    ∀ (s : OpState V), s.numGroups ≤ s.groups.length →
    (s.prevInput ≠ none → 1 ≤ s.numGroups) → (∀ b ∈ batches, b ≠ []) →
    (runBatches cfg s batches).2.numGroups ≤ (runBatches cfg s batches).2.groups.length
    ∧ ((runBatches cfg s batches).2.prevInput ≠ none →
        1 ≤ (runBatches cfg s batches).2.numGroups)
    ∧ (batches ≠ [] → (runBatches cfg s batches).2.prevInput ≠ none) := by
  induction batches with
  | nil =>
    intro s h1 h2 _
    exact ⟨h1, h2, fun hne => absurd rfl hne⟩
  | cons b rest ih =>
    intro s h1 h2 hne
    have hstep := getOutput_process_inv cfg s b (hne b (List.mem_cons_self b rest)) h1 h2
    have hrest := ih (getOutputState cfg (addInput s b)) hstep.2.2.1
      (fun _ => hstep.2.2.2) (fun x hx => hne x (List.mem_cons_of_mem b hx))
    have hrb : runBatches cfg s (b :: rest) =
        (((getOutput cfg (addInput s b)).1.toList ++
            (runBatches cfg (getOutputState cfg (addInput s b)) rest).1),
          (runBatches cfg (getOutputState cfg (addInput s b)) rest).2) := rfl
    rw [hrb]
    refine ⟨hrest.1, hrest.2.1, fun _ => ?_⟩
    cases hr : rest with
    | nil =>
      have : runBatches cfg (getOutputState cfg (addInput s b)) [] =
          ([], getOutputState cfg (addInput s b)) := rfl
      rw [this]
      rw [hstep.2.1]
      exact fun hcon => Option.noConfusion hcon
    | cons c cs =>
      rw [← hr]
      exact hrest.2.2 (by rw [hr]; exact fun hcon => List.noConfusion hcon)

/-- **C10.** In every state reachable under the driver protocol with nonempty
input batches, whenever a previous batch is retained, at least one group is
open and `numGroups - 1` indexes inside the slot pointer vector — so the
seam-continuation read `groups_[numGroups_ - 1]` in `assignGroups` is in
bounds when the next input is processed. -/
theorem c10_seam_read_in_bounds [DecidableEq V] (cfg : OpConfig V)
    (batches : List (Batch V)) (hne : ∀ b ∈ batches, b ≠ []) :
    ((runBatches cfg initialState batches).2.prevInput ≠ none →
      1 ≤ (runBatches cfg initialState batches).2.numGroups
      ∧ (runBatches cfg initialState batches).2.numGroups - 1 <
          (runBatches cfg initialState batches).2.groups.length)
    ∧ (runBatches cfg initialState batches).2.numGroups ≤
        (runBatches cfg initialState batches).2.groups.length := by
  have h := runBatches_inv cfg batches initialState (by simp [initialState])
    (fun hcon => absurd rfl hcon) hne
  refine ⟨fun hp => ⟨h.2.1 hp, ?_⟩, h.1⟩
  have h1 := h.2.1 hp
  have h2 := h.1
  omega

theorem c10_seam_read_in_bounds_witness :
    (∀ b ∈ [wBatch, [[4, 60, 1], [5, 70, 0]]], b ≠ [])
    ∧ (((runBatches wCfg initialState [wBatch, [[4, 60, 1], [5, 70, 0]]]).2.prevInput ≠ none →
        1 ≤ (runBatches wCfg initialState [wBatch, [[4, 60, 1], [5, 70, 0]]]).2.numGroups
        ∧ (runBatches wCfg initialState [wBatch, [[4, 60, 1], [5, 70, 0]]]).2.numGroups - 1 <
            (runBatches wCfg initialState [wBatch, [[4, 60, 1], [5, 70, 0]]]).2.groups.length)
      ∧ (runBatches wCfg initialState [wBatch, [[4, 60, 1], [5, 70, 0]]]).2.numGroups ≤
          (runBatches wCfg initialState [wBatch, [[4, 60, 1], [5, 70, 0]]]).2.groups.length) :=
  ⟨by decide, c10_seam_read_in_bounds wCfg [wBatch, [[4, 60, 1], [5, 70, 0]]] (by decide)⟩

/-! ## C1: the full-stream equivalence.  Small list helpers first. -/

theorem set_getElem?_self {α : Type} (l : List α) (n : Nat) (a : α)
    (h : l[n]? = some a) : l.set n a = l := by
  apply List.ext_getElem?
  intro i
  by_cases hi : n = i
  · subst hi
    rw [List.getElem?_set_self (by rcases List.getElem?_eq_some_iff.1 h with ⟨h1, _⟩; exact h1)]
    exact h.symm
  · rw [List.getElem?_set_ne hi]

theorem map_range_getD {α β : Type} (l : List α) (d : α) (F : α → β) :
    (List.range l.length).map (fun i => F (l.getD i d)) = l.map F := by
  induction l with
  | nil => rfl
  | cons a tl ih =>
    have hcomp : ((fun i => F ((a :: tl).getD i d)) ∘ Nat.succ) =
        fun i => F (tl.getD i d) := rfl
    rw [List.length_cons, List.range_succ_eq_map, List.map_cons, List.map_map, hcomp, ih]
    rfl

theorem map_range_getD_self {α : Type} (l : List α) (d : α) :
    (List.range l.length).map (fun i => l.getD i d) = l := by
  have h := map_range_getD l d id
  simpa using h

theorem segment_map {α β : Type} (l : List α) (e k : Nat) (F : α → β) (d : α)
    (h : e + k ≤ l.length) :
    (List.range k).map (fun r => F (l.getD (e + r) d)) = ((l.drop e).take k).map F := by
  induction k generalizing e l with
  | zero => simp
  | succ k ih =>
    have he : e < l.length := by omega
    rw [List.drop_eq_getElem_cons he]
    rw [List.take_succ_cons, List.map_cons]
    rw [List.range_succ_eq_map, List.map_cons, List.map_map]
    congr 1
    · simp [List.getD_eq_getElem?_getD, List.getElem?_eq_getElem he]
    · have h2 : (e + 1) + k ≤ l.length := by omega
      have := ih l (e + 1) h2
      rw [← this]
      apply List.map_congr_left
      intro i _
      simp only [Function.comp]
      congr 2
      omega

theorem range_drop_cons (n j : Nat) (h : j < n) :
    (List.range n).drop j = j :: (List.range n).drop (j + 1) := by
  rw [List.drop_eq_getElem_cons (by simpa using h)]
  congr 1
  simp

theorem length_takeWhile_range {α : Type} (l : List α) (d : α) (q : α → Bool) :
    ((List.range l.length).takeWhile fun i => q (l.getD i d)).length =
      (l.takeWhile q).length := by
  induction l with
  | nil => rfl
  | cons a tl ih =>
    rw [List.length_cons, List.range_succ_eq_map, List.takeWhile_cons, List.takeWhile_cons]
    by_cases hq : q a = true
    · have hq0 : q ((a :: tl).getD 0 d) = true := hq
      rw [if_pos hq0, if_pos hq]
      simp only [List.length_cons]
      rw [List.takeWhile_map, List.length_map]
      have hcomp : ((fun i => q ((a :: tl).getD i d)) ∘ Nat.succ) =
          fun i => q (tl.getD i d) := rfl
      rw [hcomp, ih]
    · have hq0 : ¬ q ((a :: tl).getD 0 d) = true := hq
      rw [if_neg hq0, if_neg hq]
      rfl

/-! ### Key comparison bridge -/

theorem equalKeys_eq_decide [DecidableEq V] (keys : List Nat) (batch : Batch V)
    (index : Nat) (otherBatch : Batch V) (otherIndex : Nat) :
    equalKeys keys batch index otherBatch otherIndex =
      decide (keyOf keys (batch.getD index []) = keyOf keys (otherBatch.getD otherIndex [])) := by
  unfold equalKeys keyOf
  by_cases h : (batch.getD index []).length = 0
  all_goals
    rw [Bool.eq_iff_iff, List.all_eq_true, decide_eq_true_iff, List.map_eq_map_iff]
    constructor
    · intro hall k hk
      exact of_decide_eq_true (hall k hk)
    · intro hall k hk
      exact decide_eq_true (hall k hk)

/-! ### Lemmas about maximal key runs -/

theorem runs_nil [DecidableEq V] (groupingKeys : List Nat) :
    runs (V := V) groupingKeys [] = [] := by
  rw [runs]

theorem runs_cons [DecidableEq V] (groupingKeys : List Nat) (r : Row V) (rest : Batch V) :
    runs groupingKeys (r :: rest) =
      (r :: rest.takeWhile fun row =>
          decide (keyOf groupingKeys row = keyOf groupingKeys r)) ::
        runs groupingKeys (rest.dropWhile fun row =>
          decide (keyOf groupingKeys row = keyOf groupingKeys r)) := by
  rw [runs]

theorem runs_ne_nil_mem [DecidableEq V] (groupingKeys : List Nat) (l : Batch V) :
    ∀ run ∈ runs groupingKeys l, run ≠ [] := by
  suffices h : ∀ (n : Nat) (l : Batch V), l.length = n →
      ∀ run ∈ runs groupingKeys l, run ≠ [] from h l.length l rfl
  intro n
  induction n using Nat.strong_induction_on with
  | _ n ih =>
    intro l hl
    cases l with
    | nil =>
      intro run hrun
      rw [runs_nil] at hrun
      cases hrun
    | cons r rest =>
      rw [runs_cons]
      intro run hrun
      rcases List.mem_cons.1 hrun with rfl | hrun
      · exact List.cons_ne_nil _ _
      · have hlen : (rest.dropWhile fun row =>
            decide (keyOf groupingKeys row = keyOf groupingKeys r)).length < n := by
          have := (List.dropWhile_sublist (l := rest) (fun row =>
            decide (keyOf groupingKeys row = keyOf groupingKeys r))).length_le
          simp only [← hl, List.length_cons]
          omega
        exact ih _ hlen _ rfl run hrun

theorem runs_flatten [DecidableEq V] (groupingKeys : List Nat) (l : Batch V) :
    (runs groupingKeys l).flatten = l := by
  suffices h : ∀ (n : Nat) (l : Batch V), l.length = n →
      (runs groupingKeys l).flatten = l from h l.length l rfl
  intro n
  induction n using Nat.strong_induction_on with
  | _ n ih =>
    intro l hl
    cases l with
    | nil => rw [runs_nil]; rfl
    | cons r rest =>
      rw [runs_cons, List.flatten_cons]
      have hlen : (rest.dropWhile fun row =>
          decide (keyOf groupingKeys row = keyOf groupingKeys r)).length < n := by
        have := (List.dropWhile_sublist (l := rest) (fun row =>
          decide (keyOf groupingKeys row = keyOf groupingKeys r))).length_le
        simp only [← hl, List.length_cons]
        omega
      rw [ih _ hlen _ rfl]
      rw [List.cons_append, List.takeWhile_append_dropWhile]

theorem runs_ne_nil [DecidableEq V] (groupingKeys : List Nat) (l : Batch V) (h : l ≠ []) :
    runs groupingKeys l ≠ [] := by
  cases l with
  | nil => exact absurd rfl h
  | cons r rest =>
    rw [runs_cons]
    exact List.cons_ne_nil _ _

theorem runs_key_const [DecidableEq V] (groupingKeys : List Nat) (l : Batch V) :
    ∀ run ∈ runs groupingKeys l, ∀ row ∈ run,
      keyOf groupingKeys row = keyOf groupingKeys (run.headD []) := by
  suffices h : ∀ (n : Nat) (l : Batch V), l.length = n →
      ∀ run ∈ runs groupingKeys l, ∀ row ∈ run,
        keyOf groupingKeys row = keyOf groupingKeys (run.headD []) from h l.length l rfl
  intro n
  induction n using Nat.strong_induction_on with
  | _ n ih =>
    intro l hl
    cases l with
    | nil =>
      intro run hrun
      rw [runs_nil] at hrun
      cases hrun
    | cons r rest =>
      rw [runs_cons]
      intro run hrun row hrow
      rcases List.mem_cons.1 hrun with rfl | hrun
      · simp only [List.headD_cons]
        rcases List.mem_cons.1 hrow with rfl | hrow
        · rfl
        · exact of_decide_eq_true (List.mem_takeWhile_imp
            (p := fun row => decide (keyOf groupingKeys row = keyOf groupingKeys r)) hrow)
      · have hlen : (rest.dropWhile fun row =>
            decide (keyOf groupingKeys row = keyOf groupingKeys r)).length < n := by
          have := (List.dropWhile_sublist (l := rest) (fun row =>
            decide (keyOf groupingKeys row = keyOf groupingKeys r))).length_le
          simp only [← hl, List.length_cons]
          omega
        exact ih _ hlen _ rfl run hrun row hrow

theorem getLastD_irrel {α : Type} (l : List α) (d₁ d₂ : α) (h : l ≠ []) :
    l.getLastD d₁ = l.getLastD d₂ := by
  rw [List.getLastD_eq_getLast?, List.getLastD_eq_getLast?]
  cases hl : l.getLast? with
  | none => exact absurd (List.getLast?_eq_none_iff.1 hl) h
  | some a => rfl

theorem getLastD_mem {α : Type} (l : List α) (d : α) (h : l ≠ []) : l.getLastD d ∈ l := by
  induction l generalizing d with
  | nil => exact absurd rfl h
  | cons a tl ih =>
    rw [List.getLastD_cons]
    cases htl : tl with
    | nil => simp
    | cons b t =>
      rw [← htl]
      exact List.mem_cons_of_mem a (ih a (by rw [htl]; exact List.cons_ne_nil _ _))

theorem getLastD_append_right {α : Type} (l₁ l₂ : List α) (d : α) (h : l₂ ≠ []) :
    (l₁ ++ l₂).getLastD d = l₂.getLastD d := by
  rw [List.getLastD_eq_getLast?, List.getLastD_eq_getLast?, List.getLast?_append]
  cases hl : l₂.getLast? with
  | none => exact absurd (List.getLast?_eq_none_iff.1 hl) h
  | some a => rfl

theorem takeWhile_pointwise {α : Type} (p q : α → Bool) (l : List α)
    (h : ∀ x ∈ l, p x = q x) : l.takeWhile p = l.takeWhile q := by
  induction l with
  | nil => rfl
  | cons a tl ih =>
    rw [List.takeWhile_cons, List.takeWhile_cons, h a (List.mem_cons_self a tl)]
    by_cases hq : q a = true
    · rw [if_pos hq, if_pos hq, ih fun x hx => h x (List.mem_cons_of_mem a hx)]
    · rw [if_neg hq, if_neg hq]

theorem dropWhile_pointwise {α : Type} (p q : α → Bool) (l : List α)
    (h : ∀ x ∈ l, p x = q x) : l.dropWhile p = l.dropWhile q := by
  induction l with
  | nil => rfl
  | cons a tl ih =>
    rw [List.dropWhile_cons, List.dropWhile_cons, h a (List.mem_cons_self a tl)]
    by_cases hq : q a = true
    · rw [if_pos hq, if_pos hq, ih fun x hx => h x (List.mem_cons_of_mem a hx)]
    · rw [if_neg hq, if_neg hq]

/-- Appending rows to a nonempty prefix extends its last maximal run with the
matching prefix of the new rows and then continues with fresh runs. -/
theorem runs_append_last [DecidableEq V] (gk : List Nat) (Q B : Batch V) (hQ : Q ≠ []) :
    runs gk (Q ++ B) =
      (runs gk Q).dropLast ++
        ((runs gk Q).getLastD [] ++ B.takeWhile fun row =>
            decide (keyOf gk row = keyOf gk (Q.getLastD []))) ::
          runs gk (B.dropWhile fun row =>
            decide (keyOf gk row = keyOf gk (Q.getLastD []))) := by
  suffices h : ∀ (n : Nat) (Q : Batch V), Q.length = n → Q ≠ [] →
      runs gk (Q ++ B) =
        (runs gk Q).dropLast ++
          ((runs gk Q).getLastD [] ++ B.takeWhile fun row =>
              decide (keyOf gk row = keyOf gk (Q.getLastD []))) ::
            runs gk (B.dropWhile fun row =>
              decide (keyOf gk row = keyOf gk (Q.getLastD []))) from h Q.length Q rfl hQ
  intro n
  induction n using Nat.strong_induction_on with
  | _ n ih =>
    intro Q hlen hQ
    cases Q with
    | nil => exact absurd rfl hQ
    | cons r rest =>
      have hsum : ((rest.takeWhile fun row =>
            decide (keyOf gk row = keyOf gk r)).length) +
          ((rest.dropWhile fun row => decide (keyOf gk row = keyOf gk r)).length) =
            rest.length := by
        rw [← List.length_append, List.takeWhile_append_dropWhile]
      rw [List.cons_append, runs_cons, runs_cons]
      by_cases hd : (rest.dropWhile fun row => decide (keyOf gk row = keyOf gk r)) = []
      · have htw : (rest.takeWhile fun row => decide (keyOf gk row = keyOf gk r)) = rest := by
          have := List.takeWhile_append_dropWhile
            (p := fun row => decide (keyOf gk row = keyOf gk r)) (l := rest)
          rw [hd, List.append_nil] at this
          exact this
        have hkeyLast : keyOf gk ((r :: rest).getLastD []) = keyOf gk r := by
          have hmem := getLastD_mem (r :: rest) [] (List.cons_ne_nil r rest)
          rcases List.mem_cons.1 hmem with heq | hmem
          · rw [heq]
          · have hall := List.dropWhile_eq_nil_iff.1 hd
            exact of_decide_eq_true (hall _ hmem)
        have htwB : ((rest ++ B).takeWhile fun row =>
            decide (keyOf gk row = keyOf gk r)) =
              rest ++ (B.takeWhile fun row => decide (keyOf gk row = keyOf gk r)) := by
          rw [List.takeWhile_append, if_pos (by rw [htw])]
        have hdwB : ((rest ++ B).dropWhile fun row =>
            decide (keyOf gk row = keyOf gk r)) =
              B.dropWhile fun row => decide (keyOf gk row = keyOf gk r) := by
          rw [List.dropWhile_append, if_pos (by rw [hd]; rfl)]
        rw [htwB, hdwB, htw, hd, runs_nil]
        rw [List.getLastD_eq_getLast?] at hkeyLast
        simp [hkeyLast]
      · have hlt : (rest.dropWhile fun row =>
            decide (keyOf gk row = keyOf gk r)).length < n := by
          have := (List.dropWhile_sublist (l := rest) (fun row =>
            decide (keyOf gk row = keyOf gk r))).length_le
          simp only [← hlen, List.length_cons]
          omega
        have hrestne : rest ≠ [] := by
          intro hcon
          rw [hcon] at hd
          exact hd rfl
        have hdpos : 0 < (rest.dropWhile fun row =>
            decide (keyOf gk row = keyOf gk r)).length := List.length_pos.2 hd
        have hlast : (r :: rest).getLastD [] =
            (rest.dropWhile fun row => decide (keyOf gk row = keyOf gk r)).getLastD [] := by
          rw [List.getLastD_cons]
          rw [getLastD_irrel rest r [] hrestne]
          conv_lhs => rw [← List.takeWhile_append_dropWhile
            (p := fun row => decide (keyOf gk row = keyOf gk r)) (l := rest)]
          exact getLastD_append_right _ _ [] hd
        have htwB : ((rest ++ B).takeWhile fun row =>
            decide (keyOf gk row = keyOf gk r)) =
              rest.takeWhile fun row => decide (keyOf gk row = keyOf gk r) := by
          rw [List.takeWhile_append, if_neg (by intro hc; omega)]
        have hdwB : ((rest ++ B).dropWhile fun row =>
            decide (keyOf gk row = keyOf gk r)) =
              (rest.dropWhile fun row => decide (keyOf gk row = keyOf gk r)) ++ B := by
          rw [List.dropWhile_append, if_neg (by rw [List.isEmpty_iff]; exact hd)]
        rw [htwB, hdwB]
        rw [ih _ hlt _ rfl hd]
        have hrd : runs gk (rest.dropWhile fun row =>
            decide (keyOf gk row = keyOf gk r)) ≠ [] := runs_ne_nil gk _ hd
        rw [List.dropLast_cons_of_ne_nil hrd, List.getLastD_cons, hlast, List.cons_append]
        rw [getLastD_irrel (runs gk (rest.dropWhile fun row =>
          decide (keyOf gk row = keyOf gk r)))
          (r :: rest.takeWhile fun row => decide (keyOf gk row = keyOf gk r)) [] hrd]

/-! ### Contiguous keys and first-encounter order -/

theorem runs_keys_eq_distinctKeys [DecidableEq V] (gk : List Nat) (l : Batch V)
    (h : keysContiguous gk l = true) :
    (runs gk l).map (fun run => keyOf gk (run.headD [])) = distinctKeysInOrder gk l := by
  suffices hgen : ∀ (n : Nat) (l : Batch V), l.length = n → keysContiguous gk l = true →
      (runs gk l).map (fun run => keyOf gk (run.headD [])) = distinctKeysInOrder gk l from
    hgen l.length l rfl h
  intro n
  induction n using Nat.strong_induction_on with
  | _ n ih =>
    intro l hlen h
    cases l with
    | nil =>
      rw [runs_nil, distinctKeysInOrder]
      rfl
    | cons r rest =>
      rw [keysContiguous] at h
      rw [Bool.and_eq_true] at h
      obtain ⟨hall, hrec⟩ := h
      rw [List.all_eq_true] at hall
      rw [runs_cons, distinctKeysInOrder, List.map_cons, List.headD_cons]
      have hfilter : (rest.filter fun row =>
          !decide (keyOf gk row = keyOf gk r)) =
            rest.dropWhile fun row => decide (keyOf gk row = keyOf gk r) := by
        conv_lhs => rw [← List.takeWhile_append_dropWhile
          (p := fun row => decide (keyOf gk row = keyOf gk r)) (l := rest)]
        rw [List.filter_append]
        rw [List.filter_eq_nil_iff.2 (fun a ha => by
          have := List.mem_takeWhile_imp
            (p := fun row => decide (keyOf gk row = keyOf gk r)) ha
          simp [this]), List.nil_append]
        exact List.filter_eq_self.2 hall
      rw [hfilter]
      have hlt : (rest.dropWhile fun row =>
          decide (keyOf gk row = keyOf gk r)).length < n := by
        have := (List.dropWhile_sublist (l := rest) (fun row =>
          decide (keyOf gk row = keyOf gk r))).length_le
        simp only [← hlen, List.length_cons]
        omega
      rw [ih _ hlt _ rfl hrec]

/-! ### Selecting the rows assigned to one slot -/

/-- The group assignment produced for a list of consecutive runs: each run's
rows are assigned the slot stored at the next position of the slot vector. -/
def replicateRuns (f : Nat → Nat) : Nat → List (Batch V) → List Nat
  | _, [] => []
  | base, run :: rest => List.replicate run.length (f base) ++ replicateRuns f (base + 1) rest

/-- The rows of `B` whose assigned slot (parallel list `gs`) is `σ`. -/
def zipSelect (gs : List Nat) (B : Batch V) (σ : Nat) : Batch V :=
  (gs.zip B).filterMap fun p => if p.1 = σ then some p.2 else none

theorem zip_replicate_left {α : Type} (c : Nat) (g : Nat) (X : List α) (h : X.length = c) :
    (List.replicate c g).zip X = X.map fun b => (g, b) := by
  induction X generalizing c with
  | nil => subst h; rfl
  | cons a tl ih =>
    cases c with
    | zero => cases h
    | succ c =>
      rw [List.replicate_succ, List.zip_cons_cons, List.map_cons,
        ih c (by simpa using h)]

theorem zipSelect_replicate_append (c g : Nat) (gs' : List Nat) (X Y : Batch V) (σ : Nat)
    (h : X.length = c) :
    zipSelect (List.replicate c g ++ gs') (X ++ Y) σ =
      (if g = σ then X else []) ++ zipSelect gs' Y σ := by
  unfold zipSelect
  rw [List.zip_append (by simp [h]), List.filterMap_append]
  congr 1
  rw [zip_replicate_left c g X h, List.filterMap_map]
  by_cases hg : g = σ
  · rw [if_pos hg]
    have heq : ((fun (p : Nat × Row V) => if p.1 = σ then some p.2 else none) ∘
        fun (b : Row V) => (g, b)) = fun (b : Row V) => some b := by
      funext b
      simp [hg]
    rw [heq, List.filterMap_some]
  · rw [if_neg hg]
    have heq : ((fun (p : Nat × Row V) => if p.1 = σ then some p.2 else none) ∘
        fun (b : Row V) => (g, b)) = fun (_ : Row V) => (none : Option (Row V)) := by
      funext b
      simp [hg]
    rw [heq]
    simp

theorem zipSelect_nil_right (gs : List Nat) (σ : Nat) :
    zipSelect gs ([] : Batch V) σ = [] := by
  unfold zipSelect
  rw [List.zip_nil_right]
  rfl

theorem zipSelect_replicateRuns_miss (f : Nat → Nat) (K : List (Batch V)) :
    ∀ (base σ : Nat), (∀ k, k < K.length → f (base + k) ≠ σ) →
    zipSelect (replicateRuns f base K) K.flatten σ = [] := by
  induction K with
  | nil =>
    intro base σ _
    exact zipSelect_nil_right _ _
  | cons run rest ih =>
    intro base σ hmiss
    rw [replicateRuns, List.flatten_cons,
      zipSelect_replicate_append run.length (f base) _ run rest.flatten σ rfl]
    rw [if_neg (by simpa using hmiss 0 (by simp))]
    rw [List.nil_append]
    exact ih (base + 1) σ fun k hk => by
      have h1 := hmiss (k + 1) (by simpa using Nat.succ_lt_succ hk)
      rw [show base + 1 + k = base + (k + 1) from by omega]
      exact h1

theorem zipSelect_replicateRuns_hit (f : Nat → Nat) (K : List (Batch V)) :
    ∀ (base σ k0 : Nat), k0 < K.length → f (base + k0) = σ →
    (∀ k, k < K.length → f (base + k) = σ → k = k0) →
    zipSelect (replicateRuns f base K) K.flatten σ = K.getD k0 [] := by
  induction K with
  | nil =>
    intro base σ k0 hk0 _ _
    exact absurd hk0 (by simp)
  | cons run rest ih =>
    intro base σ k0 hk0 hhit huniq
    rw [replicateRuns, List.flatten_cons,
      zipSelect_replicate_append run.length (f base) _ run rest.flatten σ rfl]
    cases k0 with
    | zero =>
      rw [if_pos (by simpa using hhit)]
      rw [zipSelect_replicateRuns_miss f rest (base + 1) σ fun k hk hc => by
        rw [show base + 1 + k = base + (k + 1) from by omega] at hc
        have := huniq (k + 1) (by simpa using Nat.succ_lt_succ hk) hc
        cases this]
      simp
    | succ k0 =>
      rw [if_neg (by
        intro hc
        have := huniq 0 (by simp) (by simpa using hc)
        cases this)]
      rw [List.nil_append]
      have hrec := ih (base + 1) σ k0 (by simpa using Nat.lt_of_succ_lt_succ hk0)
        (by rw [show base + 1 + k0 = base + (k0 + 1) from by omega]; exact hhit)
        (fun k hk hc => by
          rw [show base + 1 + k = base + (k + 1) from by omega] at hc
          have := huniq (k + 1) (by simpa using Nat.succ_lt_succ hk) hc
          omega)
      rw [hrec]
      rfl

theorem refContribs_append (cfg : OpConfig V) (agg : AggregateInfo V) (X Y : Batch V) :
    refContribs cfg agg (X ++ Y) = refContribs cfg agg X ++ refContribs cfg agg Y := by
  unfold refContribs
  rw [List.filter_append, List.map_append]

/-- Expected contents of a live slot that stores the given (possibly still
open) run. -/
def expectedSlotContent (cfg : OpConfig V) (run : Batch V) : SlotContent V :=
  ⟨keyOf cfg.groupingKeys (run.headD []),
   cfg.aggregates.map fun a => refContribs cfg a run⟩

/-! ### Characterization of the assignment phase -/

theorem getD_eq_of_getElem? {l : List Nat} {i : Nat} {a : Nat} (h : l[i]? = some a) :
    l.getD i 0 = a := by
  rw [List.getD_eq_getElem?_getD, h]
  rfl

theorem set_concat {α : Type} (l : List α) (a b : α) :
    (l ++ [a]).set l.length b = l ++ [b] := by
  apply List.ext_getElem?
  intro i
  by_cases hi : i = l.length
  · subst hi
    rw [List.getElem?_set_self (by simp), List.getElem?_concat_length]
  · rw [List.getElem?_set_ne (fun hc => hi hc.symm)]
    by_cases hlt : i < l.length
    · rw [List.getElem?_append_left hlt, List.getElem?_append_left hlt]
    · rw [List.getElem?_eq_none (by simp; omega), List.getElem?_eq_none (by simp; omega)]

theorem nodup_getD_ne (l : List Nat) (hnd : l.Nodup) (i i' : Nat) (hi : i < l.length)
    (hi' : i' < l.length) (hne : i ≠ i') : l.getD i 0 ≠ l.getD i' 0 := by
  rw [List.getD_eq_getElem?_getD, List.getD_eq_getElem?_getD,
    List.getElem?_eq_getElem hi, List.getElem?_eq_getElem hi']
  intro hc
  exact hne ((hnd.getElem_inj_iff).1 hc)

theorem getD_set_self {α : Type} [Inhabited α] (rd : List α) (σ : Nat) (x : α)
    (h : σ < rd.length) : (rd.set σ x).getD σ default = x := by
  rw [List.getD_eq_getElem?_getD, List.getElem?_set_self (by simpa using h)]
  rfl

theorem getD_concat_length {α : Type} [Inhabited α] (l : List α) (a : α) :
    (l ++ [a]).getD l.length default = a := by
  rw [List.getD_eq_getElem?_getD, List.getElem?_concat_length]
  rfl

/-- What one `startNewGroup` call does to the state. -/
structure NewGroupOut (cfg : OpConfig V) (s s1 : OpState V) (σ : Nat)
    (key : KeyTuple V) : Prop where
  numEq : s1.numGroups = s.numGroups + 1
  numLe : s1.numGroups ≤ s1.groups.length
  prefixEq : ∀ idx, idx < s.numGroups → s1.groups[idx]? = s.groups[idx]?
  atNum : s1.groups[s.numGroups]? = some σ
  nodup : s1.groups.Nodup
  bounds : ∀ x ∈ s1.groups, x < s1.rowData.length
  rdLen : s.rowData.length ≤ s1.rowData.length
  untouched : ∀ τ, τ ≠ σ → s1.rowData[τ]? = s.rowData[τ]?
  content : s1.rowData.getD σ default = ⟨key, List.replicate cfg.aggregates.length []⟩
  inputEq : s1.input = s.input
  prevEq : s1.prevInput = s.prevInput
  noMoreEq : s1.noMoreInput = s.noMoreInput
  accLen : ∀ c ∈ s1.rowData, c.accs.length = cfg.aggregates.length

theorem startNewGroup_out [DecidableEq V] (cfg : OpConfig V) (B : Batch V) (s : OpState V)
    (j : Nat) (hle : s.numGroups ≤ s.groups.length) (hnd : s.groups.Nodup)
    (hbd : ∀ x ∈ s.groups, x < s.rowData.length)
    (hacc : ∀ c ∈ s.rowData, c.accs.length = cfg.aggregates.length) :
    NewGroupOut cfg s (startNewGroup cfg B s j).2 (startNewGroup cfg B s j).1
      (keyOf cfg.groupingKeys (B.getD j [])) := by
  by_cases hlt : s.numGroups < s.groups.length
  · have hσmem : s.groups.getD s.numGroups 0 ∈ s.groups := getD_mem_of_lt _ _ hlt
    have hσbd : s.groups.getD s.numGroups 0 < s.rowData.length := hbd _ hσmem
    have hrd1 : (startNewGroup cfg B s j).2.rowData =
        s.rowData.set (s.groups.getD s.numGroups 0)
          ⟨keyOf cfg.groupingKeys (B.getD j []),
           List.replicate cfg.aggregates.length []⟩ := by
      simp only [startNewGroup, if_pos hlt, storeKeys, initializeRow]
      rw [getD_set_self _ _ _ (by exact hσbd)]
      rw [List.set_set]
      rfl
    have hσeq : (startNewGroup cfg B s j).1 = s.groups.getD s.numGroups 0 := by
      simp [startNewGroup, if_pos hlt]
    have hgroups : (startNewGroup cfg B s j).2.groups = s.groups := by
      simp [startNewGroup, if_pos hlt]
    refine ⟨by simp [startNewGroup, if_pos hlt], ?_, ?_, ?_, ?_, ?_, ?_, ?_, ?_,
      by simp [startNewGroup, if_pos hlt], by simp [startNewGroup, if_pos hlt],
      by simp [startNewGroup, if_pos hlt], ?_⟩
    · rw [hgroups]
      simp only [startNewGroup, if_pos hlt]
      omega
    · intro idx _
      rw [hgroups]
    · rw [hgroups, hσeq, List.getD_eq_getElem?_getD, List.getElem?_eq_getElem hlt]
      simp
    · rw [hgroups]
      exact hnd
    · intro x hx
      rw [hrd1, List.length_set]
      exact hbd x (by rw [hgroups] at hx; exact hx)
    · rw [hrd1, List.length_set]
    · intro τ hτ
      rw [hrd1, hσeq] at *
      exact List.getElem?_set_ne (fun hc => hτ hc.symm)
    · rw [hrd1, hσeq, List.getD_eq_getElem?_getD, List.getElem?_set_self hσbd]
      rfl
    · intro c hc
      rw [hrd1] at hc
      rcases List.mem_iff_getElem?.1 hc with ⟨i, hi⟩
      by_cases hiσ : (startNewGroup cfg B s j).1 = i
      · rw [hσeq] at hiσ
        rw [← hiσ, List.getElem?_set_self hσbd] at hi
        obtain rfl := Option.some.inj hi
        simp
      · rw [hσeq] at hiσ
        rw [List.getElem?_set_ne hiσ] at hi
        exact hacc c (List.mem_iff_getElem?.2 ⟨i, hi⟩)
  · have hlen : s.groups.length = s.numGroups := by omega
    have hσeq : (startNewGroup cfg B s j).1 = s.rowData.length := by
      simp [startNewGroup, if_neg hlt, newRow]
    have hresize : resizeList s.groups (s.numGroups + 1) 0 = s.groups ++ [0] := by
      unfold resizeList
      rw [List.take_of_length_le (by omega)]
      rw [hlen]
      simp
    have hgroups : (startNewGroup cfg B s j).2.groups = s.groups ++ [s.rowData.length] := by
      simp only [startNewGroup, if_neg hlt, newRow, hresize]
      rw [← hlen, set_concat]
    have hrd1 : (startNewGroup cfg B s j).2.rowData =
        s.rowData ++ [⟨keyOf cfg.groupingKeys (B.getD j []),
          List.replicate cfg.aggregates.length []⟩] := by
      simp only [startNewGroup, if_neg hlt, storeKeys, newRow]
      rw [getD_concat_length]
      rw [set_concat]
      rfl
    have hfresh : s.rowData.length ∉ s.groups := fun hc => by
      have := hbd _ hc
      omega
    refine ⟨by simp [startNewGroup, if_neg hlt], ?_, ?_, ?_, ?_, ?_, ?_, ?_, ?_,
      by simp [startNewGroup, if_neg hlt], by simp [startNewGroup, if_neg hlt],
      by simp [startNewGroup, if_neg hlt], ?_⟩
    · rw [hgroups]
      simp only [startNewGroup, if_neg hlt, List.length_append, List.length_cons]
      omega
    · intro idx hidx
      rw [hgroups, List.getElem?_append_left (by omega)]
    · rw [hgroups, hσeq, ← hlen, List.getElem?_concat_length]
    · rw [hgroups]
      simp [List.nodup_append, hnd, hfresh]
    · intro x hx
      rw [hgroups] at hx
      rw [hrd1, List.length_append, List.length_cons]
      rcases List.mem_append.1 hx with hx | hx
      · have := hbd x hx
        omega
      · simp only [List.mem_singleton] at hx
        omega
    · rw [hrd1]
      simp
    · intro τ hτ
      rw [hrd1, hσeq] at *
      by_cases hτlt : τ < s.rowData.length
      · rw [List.getElem?_append_left hτlt]
      · rw [List.getElem?_eq_none (by simp; omega), List.getElem?_eq_none (by omega)]
    · rw [hrd1, hσeq, List.getD_eq_getElem?_getD, List.getElem?_concat_length]
      rfl
    · intro c hc
      rw [hrd1] at hc
      rcases List.mem_append.1 hc with hc | hc
      · exact hacc c hc
      · simp only [List.mem_singleton] at hc
        subst hc
        simp

/-- What the assignment phase does to the state: seam rows `T` go to slot `g`,
each new run of `K` opens the next slot, and nothing else changes. -/
structure AssignOut (cfg : OpConfig V) (s t : OpState V) (g : Nat) (gs : List Nat)
    (T : Batch V) (K : List (Batch V)) : Prop where
  numEq : t.numGroups = s.numGroups + K.length
  numLe : t.numGroups ≤ t.groups.length
  prefixEq : ∀ idx, idx < s.numGroups → t.groups[idx]? = s.groups[idx]?
  nodup : t.groups.Nodup
  bounds : ∀ x ∈ t.groups, x < t.rowData.length
  rdLen : s.rowData.length ≤ t.rowData.length
  gsEq : gs = List.replicate T.length g ++
      replicateRuns (fun idx => t.groups.getD idx 0) s.numGroups K
  untouched : ∀ σ, (∀ k, k < K.length → σ ≠ t.groups.getD (s.numGroups + k) 0) →
      t.rowData[σ]? = s.rowData[σ]?
  newContent : ∀ k, k < K.length →
      t.rowData.getD (t.groups.getD (s.numGroups + k) 0) default =
        ⟨keyOf cfg.groupingKeys ((K.getD k []).headD []),
         List.replicate cfg.aggregates.length []⟩
  inputEq : t.input = s.input
  prevEq : t.prevInput = s.prevInput
  noMoreEq : t.noMoreInput = s.noMoreInput
  accLen : ∀ c ∈ t.rowData, c.accs.length = cfg.aggregates.length

theorem assignLoop_out [DecidableEq V] (cfg : OpConfig V) (B : Batch V) :
    ∀ (L : List Nat) (j : Nat) (s : OpState V) (h g : Nat),
    L = (List.range B.length).drop j →
    s.numGroups ≤ s.groups.length → s.groups.Nodup →
    (∀ x ∈ s.groups, x < s.rowData.length) →
    (∀ c ∈ s.rowData, c.accs.length = cfg.aggregates.length) →
    AssignOut cfg s (assignLoop cfg B s h g L).2 g (assignLoop cfg B s h g L).1
      ((B.drop j).takeWhile fun row =>
        decide (keyOf cfg.groupingKeys row = keyOf cfg.groupingKeys (B.getD h [])))
      (runs cfg.groupingKeys ((B.drop j).dropWhile fun row =>
        decide (keyOf cfg.groupingKeys row = keyOf cfg.groupingKeys (B.getD h [])))) := by
  intro L
  induction L with
  | nil =>
    intro j s h g hL hle hnd hbd hacc
    have hjn : B.length ≤ j := by
      by_contra hc
      push_neg at hc
      rw [range_drop_cons B.length j hc] at hL
      cases hL
    have hdrop : B.drop j = [] := List.drop_eq_nil_of_le hjn
    rw [hdrop]
    simp only [List.takeWhile_nil, List.dropWhile_nil, runs_nil]
    exact ⟨by simp [assignLoop], by simpa [assignLoop] using hle,
      fun idx _ => rfl, by simpa [assignLoop] using hnd,
      by simpa [assignLoop] using hbd, le_refl _, rfl,
      fun σ _ => rfl, fun k hk => absurd hk (by simp),
      rfl, rfl, rfl, by simpa [assignLoop] using hacc⟩
  | cons i rest ih =>
    intro j s h g hL hle hnd hbd hacc
    have hjn : j < B.length := by
      by_contra hc
      push_neg at hc
      rw [List.drop_eq_nil_of_le (by simpa using hc)] at hL
      cases hL
    have hcons := range_drop_cons B.length j hjn
    rw [hcons] at hL
    have hij : j = i := (List.cons.inj hL).1.symm
    subst hij
    have hrest : rest = (List.range B.length).drop (j + 1) := (List.cons.inj hL).2
    have hBj : B.getD j [] = B[j] := by
      rw [List.getD_eq_getElem?_getD, List.getElem?_eq_getElem hjn]
      rfl
    have hdropj : B.drop j = B[j] :: B.drop (j + 1) := List.drop_eq_getElem_cons hjn
    by_cases he : equalKeys cfg.groupingKeys B h B j = true
    · have hpk : decide (keyOf cfg.groupingKeys B[j] =
          keyOf cfg.groupingKeys (B.getD h [])) = true := by
        rw [equalKeys_eq_decide] at he
        rw [decide_eq_true_iff] at he ⊢
        rw [← hBj]
        exact he.symm
      have hloop : assignLoop cfg B s h g (j :: rest) =
          ((g :: (assignLoop cfg B s h g rest).1), (assignLoop cfg B s h g rest).2) := by
        simp [assignLoop, he]
      have out := ih (j + 1) s h g hrest hle hnd hbd hacc
      rw [hloop, hdropj, List.takeWhile_cons, if_pos hpk, List.dropWhile_cons, if_pos hpk]
      exact ⟨out.numEq, out.numLe, out.prefixEq, out.nodup, out.bounds, out.rdLen,
        by rw [List.length_cons, List.replicate_succ, List.cons_append, out.gsEq],
        out.untouched, out.newContent, out.inputEq, out.prevEq, out.noMoreEq, out.accLen⟩
    · have hpk : decide (keyOf cfg.groupingKeys B[j] =
          keyOf cfg.groupingKeys (B.getD h [])) = false := by
        rw [equalKeys_eq_decide] at he
        rw [Bool.not_eq_true] at he
        rw [decide_eq_false_iff_not] at he ⊢
        rw [← hBj]
        exact fun hc => he hc.symm
      have hloop : assignLoop cfg B s h g (j :: rest) =
          (((startNewGroup cfg B s j).1 ::
              (assignLoop cfg B (startNewGroup cfg B s j).2 j
                (startNewGroup cfg B s j).1 rest).1),
            (assignLoop cfg B (startNewGroup cfg B s j).2 j
              (startNewGroup cfg B s j).1 rest).2) := by
        simp [assignLoop, he]
      have NG := startNewGroup_out cfg B s j hle hnd hbd hacc
      have out := ih (j + 1) (startNewGroup cfg B s j).2 j (startNewGroup cfg B s j).1
        hrest NG.numLe NG.nodup NG.bounds NG.accLen
      rw [hBj] at out
      rw [hloop, hdropj]
      simp only [List.takeWhile_cons, List.dropWhile_cons, hpk, Bool.false_eq_true,
        if_false, runs_cons]
      have hffσ : (assignLoop cfg B (startNewGroup cfg B s j).2 j
          (startNewGroup cfg B s j).1 rest).2.groups.getD s.numGroups 0 =
            (startNewGroup cfg B s j).1 :=
        getD_eq_of_getElem? (by
          rw [out.prefixEq s.numGroups (by rw [NG.numEq]; omega)]
          exact NG.atNum)
      have hlenG : (assignLoop cfg B (startNewGroup cfg B s j).2 j
          (startNewGroup cfg B s j).1 rest).2.numGroups ≤
            (assignLoop cfg B (startNewGroup cfg B s j).2 j
              (startNewGroup cfg B s j).1 rest).2.groups.length := out.numLe
      have hnum := out.numEq
      have hnum1 := NG.numEq
      refine ⟨?_, out.numLe, ?_, out.nodup, out.bounds, le_trans NG.rdLen out.rdLen,
        ?_, ?_, ?_, out.inputEq.trans NG.inputEq, out.prevEq.trans NG.prevEq,
        out.noMoreEq.trans NG.noMoreEq, out.accLen⟩
      · rw [List.length_cons]
        omega
      · intro idx hidx
        rw [out.prefixEq idx (by omega), NG.prefixEq idx hidx]
      · rw [List.length_nil, List.replicate_zero, List.nil_append]
        rw [replicateRuns, List.length_cons, List.replicate_succ, hffσ, List.cons_append]
        rw [out.gsEq, hnum1]
      · intro σ' hσ'
        have hne0 : σ' ≠ (startNewGroup cfg B s j).1 := by
          have h0 := hσ' 0 (by simp)
          rwa [Nat.add_zero, hffσ] at h0
        rw [out.untouched σ' (fun k hk => by
          have hk1 := hσ' (k + 1) (by rw [List.length_cons]; omega)
          rw [hnum1, show s.numGroups + 1 + k = s.numGroups + (k + 1) from by omega]
          exact hk1), NG.untouched σ' hne0]
      · intro k hk
        cases k with
        | zero =>
          rw [Nat.add_zero, hffσ]
          have huntouched : (assignLoop cfg B (startNewGroup cfg B s j).2 j
              (startNewGroup cfg B s j).1 rest).2.rowData[(startNewGroup cfg B s j).1]? =
                (startNewGroup cfg B s j).2.rowData[(startNewGroup cfg B s j).1]? := by
            apply out.untouched
            intro k' hk'
            have hneq := nodup_getD_ne _ out.nodup s.numGroups
              ((startNewGroup cfg B s j).2.numGroups + k') (by omega) (by omega) (by omega)
            rw [hffσ] at hneq
            exact hneq
          rw [List.getD_eq_getElem?_getD, huntouched, ← List.getD_eq_getElem?_getD]
          rw [NG.content, hBj]
          rfl
        | succ k' =>
          rw [List.length_cons] at hk
          have h2 := out.newContent k' (by omega)
          rw [hnum1, show s.numGroups + 1 + k' = s.numGroups + (k' + 1) from by omega] at h2
          rw [h2]
          rfl

theorem dropWhile_head_false {α : Type} (p : α → Bool) (l : List α) (a : α) (t : List α)
    (h : l.dropWhile p = a :: t) : p a = false := by
  induction l with
  | nil => cases h
  | cons x xs ih =>
    rw [List.dropWhile_cons] at h
    by_cases hx : p x = true
    · rw [if_pos hx] at h
      exact ih h
    · rw [if_neg hx] at h
      obtain ⟨rfl, -⟩ := List.cons.inj h
      exact Bool.not_eq_true _ ▸ hx

/-- Composing one `startNewGroup` with a subsequent assignment phase: the new
slot takes the run headed by `keyrow`, everything else follows the phase. -/
theorem assignOut_cons [DecidableEq V] (cfg : OpConfig V) (s sA t : OpState V)
    (σ g : Nat) (gs₂ : List Nat) (T₂ : Batch V) (K₂ : List (Batch V)) (keyrow : Row V)
    (NG : NewGroupOut cfg s sA σ (keyOf cfg.groupingKeys keyrow))
    (out : AssignOut cfg sA t σ gs₂ T₂ K₂) :
    AssignOut cfg s t g (σ :: gs₂) [] ((keyrow :: T₂) :: K₂) := by
  have hnum := out.numEq
  have hnum1 := NG.numEq
  have hffσ : t.groups.getD s.numGroups 0 = σ :=
    getD_eq_of_getElem? (by
      rw [out.prefixEq s.numGroups (by omega)]
      exact NG.atNum)
  have hlenG := out.numLe
  refine ⟨?_, out.numLe, ?_, out.nodup, out.bounds, le_trans NG.rdLen out.rdLen,
    ?_, ?_, ?_, out.inputEq.trans NG.inputEq, out.prevEq.trans NG.prevEq,
    out.noMoreEq.trans NG.noMoreEq, out.accLen⟩
  · rw [List.length_cons]
    omega
  · intro idx hidx
    rw [out.prefixEq idx (by omega), NG.prefixEq idx hidx]
  · rw [List.length_nil, List.replicate_zero, List.nil_append]
    rw [replicateRuns, List.length_cons, List.replicate_succ, hffσ, List.cons_append]
    rw [out.gsEq, hnum1]
  · intro σ' hσ'
    have hne0 : σ' ≠ σ := by
      have h0 := hσ' 0 (by simp)
      rwa [Nat.add_zero, hffσ] at h0
    rw [out.untouched σ' (fun k hk => by
      have hk1 := hσ' (k + 1) (by rw [List.length_cons]; omega)
      rw [hnum1, show s.numGroups + 1 + k = s.numGroups + (k + 1) from by omega]
      exact hk1), NG.untouched σ' hne0]
  · intro k hk
    cases k with
    | zero =>
      rw [Nat.add_zero, hffσ]
      have huntouched : t.rowData[σ]? = sA.rowData[σ]? := by
        apply out.untouched
        intro k' hk'
        have hneq := nodup_getD_ne _ out.nodup s.numGroups
          (sA.numGroups + k') (by omega) (by omega) (by omega)
        rw [hffσ] at hneq
        exact hneq
      rw [List.getD_eq_getElem?_getD, huntouched, ← List.getD_eq_getElem?_getD]
      rw [NG.content]
      rfl
    | succ k' =>
      rw [List.length_cons] at hk
      have h2 := out.newContent k' (by omega)
      rw [hnum1, show s.numGroups + 1 + k' = s.numGroups + (k' + 1) from by omega] at h2
      rw [h2]
      rfl

theorem assignGroups_out_some [DecidableEq V] (cfg : OpConfig V) (B : Batch V)
    (s : OpState V) (p : Batch V) (hp : s.prevInput = some p)
    (hle : s.numGroups ≤ s.groups.length) (hnd : s.groups.Nodup)
    (hbd : ∀ x ∈ s.groups, x < s.rowData.length)
    (hacc : ∀ c ∈ s.rowData, c.accs.length = cfg.aggregates.length) :
    AssignOut cfg s (assignGroups cfg B s).2 (s.groups.getD (s.numGroups - 1) 0)
      (assignGroups cfg B s).1
      (B.takeWhile fun row =>
        decide (keyOf cfg.groupingKeys row =
          keyOf cfg.groupingKeys (p.getD (p.length - 1) [])))
      (runs cfg.groupingKeys (B.dropWhile fun row =>
        decide (keyOf cfg.groupingKeys row =
          keyOf cfg.groupingKeys (p.getD (p.length - 1) [])))) := by
  have hcnt : ((List.range B.length).takeWhile fun i =>
      equalKeys cfg.groupingKeys p (p.length - 1) B i).length =
        (B.takeWhile fun row =>
          decide (keyOf cfg.groupingKeys row =
            keyOf cfg.groupingKeys (p.getD (p.length - 1) []))).length := by
    rw [takeWhile_pointwise _ (fun i => decide (keyOf cfg.groupingKeys (B.getD i []) =
        keyOf cfg.groupingKeys (p.getD (p.length - 1) []))) _ (fun i _ => by
      rw [equalKeys_eq_decide]
      exact decide_eq_decide.2 ⟨Eq.symm, Eq.symm⟩)]
    exact length_takeWhile_range B [] (fun row =>
      decide (keyOf cfg.groupingKeys row =
        keyOf cfg.groupingKeys (p.getD (p.length - 1) [])))
  have hc'le : (B.takeWhile fun row =>
      decide (keyOf cfg.groupingKeys row =
        keyOf cfg.groupingKeys (p.getD (p.length - 1) []))).length ≤ B.length :=
    (List.takeWhile_sublist _).length_le
  have hdw : B.dropWhile (fun row =>
      decide (keyOf cfg.groupingKeys row =
        keyOf cfg.groupingKeys (p.getD (p.length - 1) []))) =
      B.drop (B.takeWhile fun row =>
        decide (keyOf cfg.groupingKeys row =
          keyOf cfg.groupingKeys (p.getD (p.length - 1) []))).length := by
    have h0 : ((B.takeWhile fun row =>
        decide (keyOf cfg.groupingKeys row =
          keyOf cfg.groupingKeys (p.getD (p.length - 1) []))) ++
        (B.dropWhile fun row =>
          decide (keyOf cfg.groupingKeys row =
            keyOf cfg.groupingKeys (p.getD (p.length - 1) [])))).drop
          (B.takeWhile fun row =>
            decide (keyOf cfg.groupingKeys row =
              keyOf cfg.groupingKeys (p.getD (p.length - 1) []))).length =
        B.dropWhile fun row =>
          decide (keyOf cfg.groupingKeys row =
            keyOf cfg.groupingKeys (p.getD (p.length - 1) [])) :=
      List.drop_left _ _
    rw [List.takeWhile_append_dropWhile] at h0
    exact h0.symm
  by_cases hclt : (B.takeWhile fun row =>
      decide (keyOf cfg.groupingKeys row =
        keyOf cfg.groupingKeys (p.getD (p.length - 1) []))).length < B.length
  · have hres : assignGroups cfg B s =
        (List.replicate (B.takeWhile fun row =>
            decide (keyOf cfg.groupingKeys row =
              keyOf cfg.groupingKeys (p.getD (p.length - 1) []))).length
            (s.groups.getD (s.numGroups - 1) 0) ++
          (startNewGroup cfg B s (B.takeWhile fun row =>
            decide (keyOf cfg.groupingKeys row =
              keyOf cfg.groupingKeys (p.getD (p.length - 1) []))).length).1 ::
            (assignLoop cfg B (startNewGroup cfg B s (B.takeWhile fun row =>
                decide (keyOf cfg.groupingKeys row =
                  keyOf cfg.groupingKeys (p.getD (p.length - 1) []))).length).2
              (B.takeWhile fun row =>
                decide (keyOf cfg.groupingKeys row =
                  keyOf cfg.groupingKeys (p.getD (p.length - 1) []))).length
              (startNewGroup cfg B s (B.takeWhile fun row =>
                decide (keyOf cfg.groupingKeys row =
                  keyOf cfg.groupingKeys (p.getD (p.length - 1) []))).length).1
              ((List.range B.length).drop ((B.takeWhile fun row =>
                decide (keyOf cfg.groupingKeys row =
                  keyOf cfg.groupingKeys (p.getD (p.length - 1) []))).length + 1))).1,
          (assignLoop cfg B (startNewGroup cfg B s (B.takeWhile fun row =>
              decide (keyOf cfg.groupingKeys row =
                keyOf cfg.groupingKeys (p.getD (p.length - 1) []))).length).2
            (B.takeWhile fun row =>
              decide (keyOf cfg.groupingKeys row =
                keyOf cfg.groupingKeys (p.getD (p.length - 1) []))).length
            (startNewGroup cfg B s (B.takeWhile fun row =>
              decide (keyOf cfg.groupingKeys row =
                keyOf cfg.groupingKeys (p.getD (p.length - 1) []))).length).1
            ((List.range B.length).drop ((B.takeWhile fun row =>
              decide (keyOf cfg.groupingKeys row =
                keyOf cfg.groupingKeys (p.getD (p.length - 1) []))).length + 1))).2) := by
      unfold assignGroups
      rw [hp]
      simp only [hcnt]
      rw [if_pos hclt]
    have NG := startNewGroup_out cfg B s (B.takeWhile fun row =>
      decide (keyOf cfg.groupingKeys row =
        keyOf cfg.groupingKeys (p.getD (p.length - 1) []))).length hle hnd hbd hacc
    have out := assignLoop_out cfg B _ ((B.takeWhile fun row =>
        decide (keyOf cfg.groupingKeys row =
          keyOf cfg.groupingKeys (p.getD (p.length - 1) []))).length + 1)
      (startNewGroup cfg B s (B.takeWhile fun row =>
        decide (keyOf cfg.groupingKeys row =
          keyOf cfg.groupingKeys (p.getD (p.length - 1) []))).length).2
      (B.takeWhile fun row =>
        decide (keyOf cfg.groupingKeys row =
          keyOf cfg.groupingKeys (p.getD (p.length - 1) []))).length
      (startNewGroup cfg B s (B.takeWhile fun row =>
        decide (keyOf cfg.groupingKeys row =
          keyOf cfg.groupingKeys (p.getD (p.length - 1) []))).length).1
      rfl NG.numLe NG.nodup NG.bounds NG.accLen
    have hBc : B.getD (B.takeWhile fun row =>
        decide (keyOf cfg.groupingKeys row =
          keyOf cfg.groupingKeys (p.getD (p.length - 1) []))).length [] =
        B[(B.takeWhile fun row =>
          decide (keyOf cfg.groupingKeys row =
            keyOf cfg.groupingKeys (p.getD (p.length - 1) []))).length] := by
      rw [List.getD_eq_getElem?_getD, List.getElem?_eq_getElem hclt]
      rfl
    rw [hBc] at NG out
    have hdwc : B.dropWhile (fun row =>
        decide (keyOf cfg.groupingKeys row =
          keyOf cfg.groupingKeys (p.getD (p.length - 1) []))) =
        B[(B.takeWhile fun row =>
          decide (keyOf cfg.groupingKeys row =
            keyOf cfg.groupingKeys (p.getD (p.length - 1) []))).length] ::
          B.drop ((B.takeWhile fun row =>
            decide (keyOf cfg.groupingKeys row =
              keyOf cfg.groupingKeys (p.getD (p.length - 1) []))).length + 1) := by
      rw [hdw]
      exact List.drop_eq_getElem_cons hclt
    have comp := assignOut_cons cfg s _ _ _ (s.groups.getD (s.numGroups - 1) 0) _ _ _ _ NG out
    rw [hres]
    rw [hdwc, runs_cons]
    exact ⟨comp.numEq, comp.numLe, comp.prefixEq, comp.nodup, comp.bounds, comp.rdLen,
      by
        rw [comp.gsEq]
        rw [List.length_nil, List.replicate_zero, List.nil_append],
      comp.untouched, comp.newContent, comp.inputEq, comp.prevEq, comp.noMoreEq, comp.accLen⟩
  · have hceq : (B.takeWhile fun row =>
        decide (keyOf cfg.groupingKeys row =
          keyOf cfg.groupingKeys (p.getD (p.length - 1) []))).length = B.length := by omega
    have hT : (B.takeWhile fun row =>
        decide (keyOf cfg.groupingKeys row =
          keyOf cfg.groupingKeys (p.getD (p.length - 1) []))) = B :=
      (List.takeWhile_sublist _).eq_of_length hceq
    have hD : (B.dropWhile fun row =>
        decide (keyOf cfg.groupingKeys row =
          keyOf cfg.groupingKeys (p.getD (p.length - 1) []))) = [] := by
      rw [hdw, hceq]
      exact List.drop_eq_nil_of_le (le_refl _)
    have hres : assignGroups cfg B s =
        (List.replicate (B.takeWhile fun row =>
            decide (keyOf cfg.groupingKeys row =
              keyOf cfg.groupingKeys (p.getD (p.length - 1) []))).length
            (s.groups.getD (s.numGroups - 1) 0), s) := by
      unfold assignGroups
      rw [hp]
      simp only [hcnt]
      rw [if_neg hclt]
    rw [hres, hD, runs_nil]
    exact ⟨by simp, hle, fun idx _ => rfl, hnd, hbd, le_refl _,
      by simp [replicateRuns],
      fun σ _ => rfl, fun k hk => absurd hk (by simp), rfl, rfl, rfl, hacc⟩

theorem assignGroups_out_none [DecidableEq V] (cfg : OpConfig V) (B : Batch V)
    (s : OpState V) (hp : s.prevInput = none)
    (hle : s.numGroups ≤ s.groups.length) (hnd : s.groups.Nodup)
    (hbd : ∀ x ∈ s.groups, x < s.rowData.length)
    (hacc : ∀ c ∈ s.rowData, c.accs.length = cfg.aggregates.length) :
    AssignOut cfg s (assignGroups cfg B s).2 0 (assignGroups cfg B s).1 []
      (runs cfg.groupingKeys B) := by
  by_cases hB : 0 < B.length
  · have hres : assignGroups cfg B s =
        ((startNewGroup cfg B s 0).1 ::
            (assignLoop cfg B (startNewGroup cfg B s 0).2 0 (startNewGroup cfg B s 0).1
              ((List.range B.length).drop 1)).1,
          (assignLoop cfg B (startNewGroup cfg B s 0).2 0 (startNewGroup cfg B s 0).1
            ((List.range B.length).drop 1)).2) := by
      unfold assignGroups
      rw [hp]
      simp only []
      rw [if_pos hB]
      rfl
    have NG := startNewGroup_out cfg B s 0 hle hnd hbd hacc
    have out := assignLoop_out cfg B _ 1 (startNewGroup cfg B s 0).2 0
      (startNewGroup cfg B s 0).1 rfl NG.numLe NG.nodup NG.bounds NG.accLen
    have hB0 : B.getD 0 [] = B[0] := by
      rw [List.getD_eq_getElem?_getD, List.getElem?_eq_getElem hB]
      rfl
    rw [hB0] at NG out
    have hBcons : B = B[0] :: B.drop 1 := by
      conv_lhs => rw [← List.drop_zero B]
      exact List.drop_eq_getElem_cons hB
    have comp := assignOut_cons cfg s _ _ _ 0 _ _ _ _ NG out
    have hruns : runs cfg.groupingKeys B =
        (B[0] :: (B.drop 1).takeWhile fun row =>
            decide (keyOf cfg.groupingKeys row = keyOf cfg.groupingKeys B[0])) ::
          runs cfg.groupingKeys ((B.drop 1).dropWhile fun row =>
            decide (keyOf cfg.groupingKeys row = keyOf cfg.groupingKeys B[0])) := by
      conv_lhs => rw [hBcons]
      rw [runs_cons]
    rw [hres, hruns]
    exact comp
  · have hBnil : B = [] := by
      cases B with
      | nil => rfl
      | cons a t => exact absurd (by simp) hB
    subst hBnil
    have hres : assignGroups cfg ([] : Batch V) s = ([], s) := by
      unfold assignGroups
      rw [hp]
      simp only []
      rw [if_neg (by simp)]
    rw [hres, runs_nil]
    exact ⟨by simp, hle, fun idx _ => rfl, hnd, hbd, le_refl _, rfl,
      fun σ _ => rfl, fun k hk => absurd hk (by simp), rfl, rfl, rfl, hacc⟩

/-! ### Initialization of new groups is a no-op on freshly initialized slots -/

theorem set_replicate_nil {γ : Type} (m i : Nat) :
    (List.replicate m ([] : List γ)).set i [] = List.replicate m [] := by
  by_cases h : i < m
  · exact set_getElem?_self _ _ _ (by rw [List.getElem?_replicate, if_pos h])
  · exact List.set_eq_of_length_le (by simpa using h)

theorem initializeNewGroupsAgg_id (groups : List Nat) (i : Nat)
    (rowData : List (SlotContent V)) :
    ∀ (newG : List Nat),
    (∀ g ∈ newG, ∃ c m', rowData[groups.getD g 0]? = some c
      ∧ c.accs = List.replicate m' []) →
    initializeNewGroupsAgg groups i newG rowData = rowData := by
  intro newG
  induction newG with
  | nil => intro _; rfl
  | cons g rest ih =>
    intro h
    obtain ⟨c, m', hc, hm'⟩ := h g (List.mem_cons_self g rest)
    have hstep : (match rowData.get? (groups.getD g 0) with
        | none => rowData
        | some content =>
          rowData.set (groups.getD g 0)
            { content with accs := content.accs.set i [] }) = rowData := by
      rw [List.get?_eq_getElem?, hc]
      simp only []
      rw [hm', set_replicate_nil, ← hm']
      exact set_getElem?_self _ _ _ hc
    unfold initializeNewGroupsAgg
    rw [List.foldl_cons]
    rw [hstep]
    have := ih fun g' hg' => h g' (List.mem_cons_of_mem g hg')
    unfold initializeNewGroupsAgg at this
    exact this

theorem initializeAllAggs_id (m : Nat) (groups : List Nat)
    (newG : List Nat) (rowData : List (SlotContent V))
    (h : ∀ g ∈ newG, ∃ c m', rowData[groups.getD g 0]? = some c
      ∧ c.accs = List.replicate m' []) :
    initializeAllAggs m groups newG rowData = rowData := by
  unfold initializeAllAggs
  have hgen : ∀ (L : List Nat),
      L.foldl (fun rd i => initializeNewGroupsAgg groups i newG rd) rowData = rowData := by
    intro L
    induction L with
    | nil => rfl
    | cons i rest ih =>
      rw [List.foldl_cons, initializeNewGroupsAgg_id groups i rowData newG h]
      exact ih
  exact hgen (List.range m)

/-! ### Pointwise effect of the kernel updates -/

theorem updateAggregate_length [DecidableEq V] (raw : Bool) (agg : AggregateInfo V)
    (i : Nat) (B : Batch V) (gs : List Nat) :
    ∀ (rows : List Nat) (rd : List (SlotContent V)),
    (updateAggregate raw agg i B gs rows rd).length = rd.length := by
  intro rows
  induction rows with
  | nil => intro rd; rfl
  | cons r rest ih =>
    intro rd
    unfold updateAggregate at ih ⊢
    rw [List.foldl_cons, ih]
    unfold addContribution
    cases h : rd.get? (gs.getD r 0) with
    | none => rfl
    | some content => rw [List.length_set]

theorem updateAggregate_getElem? [DecidableEq V] (raw : Bool) (agg : AggregateInfo V)
    (i m : Nat) (B : Batch V) (gs : List Nat) (hi : i < m) :
    ∀ (rows : List Nat) (rd : List (SlotContent V)),
    (∀ r ∈ rows, gs.getD r 0 < rd.length) →
    (∀ c ∈ rd, c.accs.length = m) →
    ∀ σ, (updateAggregate raw agg i B gs rows rd)[σ]? =
      (rd[σ]?).map fun (c : SlotContent V) =>
        { c with accs := c.accs.set i (c.accs.getD i [] ++
            ((rows.filter fun r => decide (gs.getD r 0 = σ)).map fun r =>
              (raw, argVals agg (B.getD r [])))) } := by
  intro rows
  induction rows with
  | nil =>
    intro rd _ hacc σ
    show rd[σ]? = _
    cases hσ : rd[σ]? with
    | none => rfl
    | some c =>
      simp only [List.filter_nil, List.map_nil, List.append_nil, Option.map_some']
      have hlen : i < c.accs.length := by
        rw [hacc c (List.mem_iff_getElem?.2 ⟨σ, hσ⟩)]
        exact hi
      have hsome : c.accs[i]? = some (c.accs.getD i []) := by
        rw [List.getD_eq_getElem?_getD, List.getElem?_eq_getElem hlen]
        rfl
      rw [set_getElem?_self _ _ _ hsome]
  | cons r rest ih =>
    intro rd hbnd hacc σ
    have hσr : gs.getD r 0 < rd.length := hbnd r (List.mem_cons_self r rest)
    obtain ⟨c, hc⟩ : ∃ c, rd[gs.getD r 0]? = some c := by
      rw [List.getElem?_eq_getElem hσr]
      exact ⟨_, rfl⟩
    have hclen : i < c.accs.length := by
      rw [hacc c (List.mem_iff_getElem?.2 ⟨_, hc⟩)]
      exact hi
    have hstep : updateAggregate raw agg i B gs (r :: rest) rd =
        updateAggregate raw agg i B gs rest
          (rd.set (gs.getD r 0) { c with accs := c.accs.set i (c.accs.getD i [] ++
            [(raw, argVals agg (B.getD r []))]) }) := by
      unfold updateAggregate
      rw [List.foldl_cons]
      congr 1
      unfold addContribution
      rw [List.get?_eq_getElem?, hc]
    have hih := ih (rd.set (gs.getD r 0) { c with accs := c.accs.set i (c.accs.getD i [] ++
        [(raw, argVals agg (B.getD r []))]) })
      (fun r' hr' => by
        rw [List.length_set]
        exact hbnd r' (List.mem_cons_of_mem r hr'))
      (fun c' hc' => by
        rcases List.mem_iff_getElem?.1 hc' with ⟨idx, hidx⟩
        by_cases hie : gs.getD r 0 = idx
        · rw [← hie, List.getElem?_set_self hσr] at hidx
          obtain rfl := Option.some.inj hidx
          rw [List.length_set]
          exact hacc c (List.mem_iff_getElem?.2 ⟨_, hc⟩)
        · rw [List.getElem?_set_ne hie] at hidx
          exact hacc c' (List.mem_iff_getElem?.2 ⟨idx, hidx⟩)) σ
    rw [hstep, hih]
    by_cases hσeq : gs.getD r 0 = σ
    · subst hσeq
      rw [List.getElem?_set_self hσr, hc]
      simp only [Option.map_some']
      congr 1
      have hfull : (r :: rest).filter (fun r' => decide (gs.getD r' 0 = gs.getD r 0)) =
          r :: rest.filter (fun r' => decide (gs.getD r' 0 = gs.getD r 0)) := by
        rw [List.filter_cons]
        simp
      rw [hfull, List.map_cons]
      have hgetD : (c.accs.set i (c.accs.getD i [] ++
          [(raw, argVals agg (B.getD r []))])).getD i [] =
            c.accs.getD i [] ++ [(raw, argVals agg (B.getD r []))] :=
        getD_set_self _ _ _ hclen
      show SlotContent.mk c.keys _ = SlotContent.mk c.keys _
      congr 1
      rw [List.set_set, hgetD, List.append_assoc, List.singleton_append]
    · rw [List.getElem?_set_ne hσeq]
      have hfull : (r :: rest).filter (fun r' => decide (gs.getD r' 0 = σ)) =
          rest.filter (fun r' => decide (gs.getD r' 0 = σ)) := by
        rw [List.filter_cons, if_neg (by simpa using hσeq)]
      rw [hfull]
theorem getSelectivityVector_eq_filter [DecidableEq V] (cfg : OpConfig V) (i : Nat)
    (input : Batch V) (inputRows : List Nat) :
    getSelectivityVector cfg i input inputRows =
      inputRows.filter fun r =>
        maskPasses cfg (cfg.aggregates.getD i default) (input.getD r []) := by
  unfold getSelectivityVector activeRows
  cases hm : (cfg.aggregates.getD i default).mask with
  | none =>
    have hpred : ∀ r, maskPasses cfg (cfg.aggregates.getD i default)
        (input.getD r []) = true := by
      intro r
      unfold maskPasses
      rw [hm]
    rw [List.filter_congr (fun r _ => hpred r), List.filter_true]
  | some c => rfl

/-- The list of contributions that one input batch adds, through aggregate `i`,
to the slot `σ`: the rows selected by the aggregate's mask whose assigned group
is `σ`, each materialized through the aggregate's argument channels. -/
def contribsFor [DecidableEq V] (cfg : OpConfig V) (B : Batch V) (inputRows : List Nat)
    (gs : List Nat) (σ i : Nat) : List (Contribution V) :=
  ((getSelectivityVector cfg i B inputRows).filter fun r =>
    decide (gs.getD r 0 = σ)).map fun r =>
    (isRawInput cfg.step, argVals (cfg.aggregates.getD i default) (B.getD r []))

theorem evaluateAggregates_length [DecidableEq V] (cfg : OpConfig V) (B : Batch V)
    (inputRows : List Nat) (gs : List Nat) (rd : List (SlotContent V)) :
    (evaluateAggregates cfg B inputRows gs rd).length = rd.length := by
  unfold evaluateAggregates
  have hgen : ∀ (L : List Nat) (rd : List (SlotContent V)),
      (L.foldl (fun rd i =>
        updateAggregate (isRawInput cfg.step) (cfg.aggregates.getD i default) i B gs
          (getSelectivityVector cfg i B inputRows) rd) rd).length = rd.length := by
    intro L
    induction L with
    | nil => intro rd; rfl
    | cons i L' ih =>
      intro rd
      rw [List.foldl_cons, ih, updateAggregate_length]
  exact hgen (List.range cfg.aggregates.length) rd

theorem evaluateAggregates_getElem? [DecidableEq V] (cfg : OpConfig V) (B : Batch V)
    (inputRows : List Nat) (gs : List Nat) (rd : List (SlotContent V))
    (hbnd : ∀ r ∈ inputRows, gs.getD r 0 < rd.length)
    (hacc : ∀ c ∈ rd, c.accs.length = cfg.aggregates.length) :
    ∀ σ, (evaluateAggregates cfg B inputRows gs rd)[σ]? =
      (rd[σ]?).map fun (c : SlotContent V) =>
        { c with accs := List.foldl (fun a i => a.set i (a.getD i [] ++
            contribsFor cfg B inputRows gs σ i)) c.accs (List.range cfg.aggregates.length) } := by
  unfold evaluateAggregates
  have hgen : ∀ (L : List Nat), (∀ i ∈ L, i < cfg.aggregates.length) →
      ∀ (rd : List (SlotContent V)),
      (∀ r ∈ inputRows, gs.getD r 0 < rd.length) →
      (∀ c ∈ rd, c.accs.length = cfg.aggregates.length) →
      ∀ σ, (L.foldl (fun rd i =>
          updateAggregate (isRawInput cfg.step) (cfg.aggregates.getD i default) i B gs
            (getSelectivityVector cfg i B inputRows) rd) rd)[σ]? =
        (rd[σ]?).map fun (c : SlotContent V) =>
          { c with accs := List.foldl (fun a i => a.set i (a.getD i [] ++
              contribsFor cfg B inputRows gs σ i)) c.accs L } := by
    intro L
    induction L with
    | nil =>
      intro _ rd _ _ σ
      rw [List.foldl_nil]
      cases hσ : rd[σ]? with
      | none => rfl
      | some c => rfl
    | cons i L' ih =>
      intro hmem rd hbnd' hacc' σ
      rw [List.foldl_cons]
      have hrows : ∀ r ∈ getSelectivityVector cfg i B inputRows, gs.getD r 0 < rd.length := by
        intro r hr
        rw [getSelectivityVector_eq_filter] at hr
        exact hbnd' r (List.mem_of_mem_filter hr)
      have hupd := updateAggregate_getElem? (isRawInput cfg.step)
        (cfg.aggregates.getD i default) i cfg.aggregates.length B gs
        (hmem i (List.mem_cons_self i L')) (getSelectivityVector cfg i B inputRows)
        rd hrows hacc'
      have hlen : (updateAggregate (isRawInput cfg.step) (cfg.aggregates.getD i default)
          i B gs (getSelectivityVector cfg i B inputRows) rd).length = rd.length :=
        updateAggregate_length _ _ _ _ _ _ _
      have hih := ih (fun i' h' => hmem i' (List.mem_cons_of_mem _ h'))
        (updateAggregate (isRawInput cfg.step) (cfg.aggregates.getD i default) i B gs
          (getSelectivityVector cfg i B inputRows) rd)
        (fun r hr => by rw [hlen]; exact hbnd' r hr)
        (fun c' hc' => by
          rcases List.mem_iff_getElem?.1 hc' with ⟨idx, hidx⟩
          rw [hupd idx] at hidx
          cases hrd : rd[idx]? with
          | none => rw [hrd] at hidx; cases hidx
          | some c =>
            rw [hrd, Option.map_some'] at hidx
            obtain rfl := (Option.some.inj hidx).symm
            simp only [List.length_set]
            exact hacc' c (List.mem_iff_getElem?.2 ⟨idx, hrd⟩)) σ
      rw [hih, hupd σ, Option.map_map]
      rfl
  exact hgen (List.range cfg.aggregates.length) (fun i h => List.mem_range.1 h) rd hbnd hacc

theorem foldl_set_append_spec {γ : Type} (f : Nat → List γ) :
    ∀ (k : Nat) (l : List (List γ)),
    ((List.range k).foldl (fun a i => a.set i (a.getD i [] ++ f i)) l).length = l.length
    ∧ ∀ idx, ((List.range k).foldl (fun a i => a.set i (a.getD i [] ++ f i)) l)[idx]? =
        if idx < k then (l[idx]?).map (fun x => x ++ f idx) else l[idx]? := by
  intro k
  induction k with
  | zero =>
    intro l
    exact ⟨rfl, fun idx => by rw [if_neg (by omega)]; rfl⟩
  | succ k ih =>
    intro l
    rw [List.range_succ, List.foldl_append]
    obtain ⟨ihlen, ihpt⟩ := ih l
    constructor
    · simp only [List.foldl_cons, List.foldl_nil, List.length_set]
      exact ihlen
    · intro idx
      simp only [List.foldl_cons, List.foldl_nil]
      by_cases hik : k = idx
      · subst hik
        rw [if_pos (by omega)]
        by_cases hkl : k < l.length
        · have hkX : k < ((List.range k).foldl
              (fun a i => a.set i (a.getD i [] ++ f i)) l).length := by
            rw [ihlen]; exact hkl
          rw [List.getElem?_set_self hkX]
          have hk := ihpt k
          rw [if_neg (by omega)] at hk
          have hXgd : ((List.range k).foldl
              (fun a i => a.set i (a.getD i [] ++ f i)) l).getD k [] = l.getD k [] := by
            rw [List.getD_eq_getElem?_getD, List.getD_eq_getElem?_getD, hk]
          rw [hXgd, List.getElem?_eq_getElem hkl, Option.map_some',
            List.getD_eq_getElem?_getD, List.getElem?_eq_getElem hkl]
          rfl
        · rw [List.getElem?_eq_none (by simp only [List.length_set]; omega),
            List.getElem?_eq_none (by omega : l.length ≤ k)]
          rfl
      · rw [List.getElem?_set_ne hik, ihpt idx]
        by_cases hidx : idx < k
        · rw [if_pos hidx, if_pos (by omega)]
        · rw [if_neg hidx, if_neg (by omega)]

theorem foldl_set_append_eq_map {γ : Type} (f : Nat → List γ) (l : List (List γ))
    (m : Nat) (hl : l.length = m) :
    (List.range m).foldl (fun a i => a.set i (a.getD i [] ++ f i)) l =
      (List.range m).map fun i => l.getD i [] ++ f i := by
  apply List.ext_getElem?
  intro idx
  rw [(foldl_set_append_spec f m l).2 idx, List.getElem?_map]
  by_cases h : idx < m
  · have hidxl : idx < l.length := by omega
    rw [if_pos h, List.getElem?_range h, Option.map_some',
      List.getElem?_eq_getElem hidxl, Option.map_some',
      List.getD_eq_getElem?_getD, List.getElem?_eq_getElem hidxl]
    rfl
  · rw [if_neg h,
      List.getElem?_eq_none (show (List.range m).length ≤ idx by
        simp only [List.length_range]; omega),
      List.getElem?_eq_none (show l.length ≤ idx by omega)]
    rfl

/-! ### Further list helpers for the end-to-end equivalence -/

theorem getD_map_lt {α β : Type} (l : List α) (f : α → β) (i : Nat) (d : β) (d' : α)
    (h : i < l.length) : (l.map f).getD i d = f (l.getD i d') := by
  rw [List.getD_eq_getElem?_getD, List.getElem?_map, List.getElem?_eq_getElem h,
    List.getD_eq_getElem?_getD, List.getElem?_eq_getElem h]
  rfl

theorem getD_length_sub_one {α : Type} (l : List α) (d : α) (h : l ≠ []) :
    l.getD (l.length - 1) d = l.getLastD d := by
  induction l with
  | nil => exact absurd rfl h
  | cons a tl ih =>
    cases tl with
    | nil => rfl
    | cons b tl' =>
      rw [List.getLastD_cons, getLastD_irrel (b :: tl') a d (List.cons_ne_nil _ _)]
      have hlen : (a :: b :: tl').length - 1 = (b :: tl').length - 1 + 1 := by
        simp only [List.length_cons]
        omega
      rw [hlen, List.getD_cons_succ]
      exact ih (List.cons_ne_nil _ _)

theorem mem_replicateRuns (f : Nat → Nat) :
    ∀ (K : List (Batch V)) (base x : Nat), x ∈ replicateRuns f base K →
    ∃ k, k < K.length ∧ x = f (base + k) := by
  intro K
  induction K with
  | nil => intro base x hx; cases hx
  | cons run rest ih =>
    intro base x hx
    rw [replicateRuns, List.mem_append] at hx
    cases hx with
    | inl hrep => exact ⟨0, by simp, by simpa using List.eq_of_mem_replicate hrep⟩
    | inr hrest =>
      obtain ⟨k, hk, hxe⟩ := ih (base + 1) x hrest
      exact ⟨k + 1, by simpa using Nat.succ_lt_succ hk,
        by rw [hxe, show base + 1 + k = base + (k + 1) from by omega]⟩

theorem length_replicateRuns (f : Nat → Nat) :
    ∀ (K : List (Batch V)) (base : Nat),
    (replicateRuns f base K).length = K.flatten.length := by
  intro K
  induction K with
  | nil => intro base; rfl
  | cons run rest ih =>
    intro base
    rw [replicateRuns, List.flatten_cons, List.length_append, List.length_append,
      List.length_replicate, ih (base + 1)]

theorem hcompq {β : Type} (p : Row V → Bool) (h : Row V → β) (b : Row V) (B' : Batch V)
    (g0 : Nat) (gs' : List Nat) (σ : Nat) :
    ((fun r => p ((b :: B').getD r []) && decide ((g0 :: gs').getD r 0 = σ)) ∘ Nat.succ) =
      fun r => p (B'.getD r []) && decide (gs'.getD r 0 = σ) := rfl

theorem hcomph {β : Type} (p : Row V → Bool) (h : Row V → β) (b : Row V) (B' : Batch V) :
    ((fun r => h ((b :: B').getD r [])) ∘ Nat.succ) = fun r => h (B'.getD r []) := rfl

theorem zipSelect_cons (g0 : Nat) (gs' : List Nat) (b : Row V) (B' : Batch V) (σ : Nat) :
    zipSelect (g0 :: gs') (b :: B') σ =
      (if g0 = σ then [b] else []) ++ zipSelect gs' B' σ := by
  by_cases hg : g0 = σ
  · simp [zipSelect, List.zip_cons_cons, hg]
  · simp [zipSelect, List.zip_cons_cons, hg]

theorem filter_range_zip {β : Type} (p : Row V → Bool) (h : Row V → β) :
    ∀ (B : Batch V) (gs : List Nat), gs.length = B.length → ∀ (σ : Nat),
    (((List.range B.length).filter fun r =>
        p (B.getD r []) && decide (gs.getD r 0 = σ)).map fun r => h (B.getD r [])) =
      ((zipSelect gs B σ).filter p).map h := by
  intro B
  induction B with
  | nil =>
    intro gs _ σ
    rw [zipSelect, List.zip_nil_right]
    rfl
  | cons b B' ih =>
    intro gs hlen σ
    cases gs with
    | nil => exact absurd hlen (by simp)
    | cons g0 gs' =>
      have hlen' : gs'.length = B'.length := by simpa using hlen
      rw [zipSelect_cons, List.length_cons, List.range_succ_eq_map, List.filter_cons]
      simp only [List.getD_cons_zero]
      rw [List.filter_map, hcompq p h b B' g0 gs' σ]
      by_cases hg : g0 = σ
      · rw [if_pos hg, List.singleton_append, List.filter_cons]
        by_cases hp : p b = true
        · rw [if_pos (by rw [hp, hg]; simp), if_pos hp, List.map_cons, List.map_cons,
            List.map_map, hcomph p h b B', List.getD_cons_zero, ih gs' hlen' σ]
        · rw [if_neg (by rw [Bool.not_eq_true] at hp; rw [hp]; simp),
            if_neg (by rw [Bool.not_eq_true] at hp; rw [hp]; simp),
            List.map_map, hcomph p h b B', ih gs' hlen' σ]
      · rw [if_neg hg, List.nil_append, if_neg (by simp [hg]),
          List.map_map, hcomph p h b B', ih gs' hlen' σ]

theorem contribsFor_eq_ref [DecidableEq V] (cfg : OpConfig V) (B : Batch V)
    (gs : List Nat) (σ i : Nat) (hlen : gs.length = B.length) :
    contribsFor cfg B (List.range B.length) gs σ i =
      refContribs cfg (cfg.aggregates.getD i default) (zipSelect gs B σ) := by
  unfold contribsFor refContribs
  rw [getSelectivityVector_eq_filter, List.filter_filter]
  have hswap : (fun a => decide (gs.getD a 0 = σ) &&
      maskPasses cfg (cfg.aggregates.getD i default) (B.getD a [])) =
        fun a => maskPasses cfg (cfg.aggregates.getD i default) (B.getD a []) &&
          decide (gs.getD a 0 = σ) := by
    funext a
    exact Bool.and_comm _ _
  rw [hswap]
  exact filter_range_zip (maskPasses cfg (cfg.aggregates.getD i default))
    (fun row => (isRawInput cfg.step, argVals (cfg.aggregates.getD i default) row))
    B gs hlen σ

theorem runs_take_stable [DecidableEq V] (gk : List Nat) (X Y : Batch V) (hX : X ≠ [])
    (n : Nat) (hn : n < (runs gk X).length) :
    (runs gk (X ++ Y)).take n = (runs gk X).take n := by
  rw [runs_append_last gk X Y hX]
  rw [List.take_append_of_le_length (by rw [List.length_dropLast]; omega)]
  rw [List.dropLast_eq_take, List.take_take, Nat.min_eq_left (by omega)]

theorem rotate_perm {α : Type} (l : List α) (n : Nat) :
    (l.drop n ++ l.take n).Perm l := by
  have hperm : (l.drop n ++ l.take n).Perm (l.take n ++ l.drop n) :=
    List.perm_append_comm
  rwa [List.take_append_drop] at hperm

theorem rotate_getD (l : List Nat) (n t : Nat) (h : n + t < l.length) :
    (l.drop n ++ l.take n).getD t 0 = l.getD (n + t) 0 := by
  rw [List.getD_eq_getElem?_getD, List.getD_eq_getElem?_getD,
    List.getElem?_append_left (by rw [List.length_drop]; omega), List.getElem?_drop]

theorem evaluateAggregates_accLen [DecidableEq V] (cfg : OpConfig V) (B : Batch V)
    (inputRows : List Nat) (gs : List Nat) (rd : List (SlotContent V))
    (hbnd : ∀ r ∈ inputRows, gs.getD r 0 < rd.length)
    (hacc : ∀ c ∈ rd, c.accs.length = cfg.aggregates.length) :
    ∀ c ∈ evaluateAggregates cfg B inputRows gs rd,
      c.accs.length = cfg.aggregates.length := by
  intro c hc
  rcases List.mem_iff_getElem?.1 hc with ⟨idx, hidx⟩
  rw [evaluateAggregates_getElem? cfg B inputRows gs rd hbnd hacc idx] at hidx
  cases hrd : rd[idx]? with
  | none => rw [hrd] at hidx; cases hidx
  | some c0 =>
    rw [hrd, Option.map_some'] at hidx
    obtain rfl := (Option.some.inj hidx).symm
    show (List.foldl _ c0.accs (List.range cfg.aggregates.length)).length = _
    rw [(foldl_set_append_spec
      (fun i => contribsFor cfg B inputRows gs idx i)
      cfg.aggregates.length c0.accs).1]
    exact hacc c0 (List.mem_iff_getElem?.2 ⟨idx, hrd⟩)

/-! ### Per-slot effect of one processing pass -/

theorem evaluate_slot [DecidableEq V] (cfg : OpConfig V) (B : Batch V) (gs : List Nat)
    (rd2 : List (SlotContent V)) (hlen : gs.length = B.length)
    (hbnd : ∀ r ∈ List.range B.length, gs.getD r 0 < rd2.length)
    (hacc : ∀ c ∈ rd2, c.accs.length = cfg.aggregates.length)
    (σ : Nat) (hσ : σ < rd2.length) (key : KeyTuple V) (run0 : Batch V)
    (hold : rd2.getD σ default = ⟨key, cfg.aggregates.map fun a => refContribs cfg a run0⟩) :
    (evaluateAggregates cfg B (List.range B.length) gs rd2).getD σ default =
      ⟨key, cfg.aggregates.map fun a =>
        refContribs cfg a (run0 ++ zipSelect gs B σ)⟩ := by
  have hget := evaluateAggregates_getElem? cfg B (List.range B.length) gs rd2 hbnd hacc σ
  have hc : rd2[σ] = rd2.getD σ default := by
    rw [List.getD_eq_getElem?_getD, List.getElem?_eq_getElem hσ]
    rfl
  rw [List.getD_eq_getElem?_getD, hget, List.getElem?_eq_getElem hσ, Option.map_some']
  show SlotContent.mk rd2[σ].keys _ = _
  rw [hc, hold]
  show SlotContent.mk key _ = SlotContent.mk key _
  congr 1
  rw [foldl_set_append_eq_map (fun i => contribsFor cfg B (List.range B.length) gs σ i)
    _ cfg.aggregates.length (by rw [List.length_map])]
  rw [← map_range_getD cfg.aggregates default
    (fun a => refContribs cfg a (run0 ++ zipSelect gs B σ))]
  apply List.map_congr_left
  intro i hi
  rw [List.mem_range] at hi
  rw [getD_map_lt cfg.aggregates _ i [] default hi,
    contribsFor_eq_ref cfg B gs σ i hlen, ← refContribs_append]

theorem outRow_of_expected (cfg : OpConfig V) (run : Batch V) :
    ({ keys := (expectedSlotContent cfg run).keys,
       aggs := (List.range cfg.aggregates.length).map fun i =>
         (isPartialOutput cfg.step, (expectedSlotContent cfg run).accs.getD i []) } :
      OutRow V) = refOutRow cfg run := by
  unfold expectedSlotContent refOutRow
  show OutRow.mk _ _ = OutRow.mk _ _
  congr 1
  apply List.map_congr_left
  intro i hi
  rw [List.mem_range] at hi
  rw [getD_map_lt cfg.aggregates _ i [] default hi]

theorem createOutput_emits (cfg : OpConfig V) (u : OpState V) (R : List (Batch V))
    (e n : Nat) (hn : e + n ≤ R.length)
    (hcontent : ∀ t, t < n → u.rowData.getD (u.groups.getD t 0) default =
      expectedSlotContent cfg (R.getD (e + t) [])) :
    createOutput cfg u n = ((R.drop e).take n).map (refOutRow cfg) := by
  unfold createOutput
  rw [← segment_map R e n (refOutRow cfg) [] hn]
  apply List.map_congr_left
  intro r hr
  rw [List.mem_range] at hr
  show ({ keys := (u.rowData.getD (u.groups.getD r 0) default).keys,
          aggs := (List.range cfg.aggregates.length).map fun i =>
            (isPartialOutput cfg.step,
              (u.rowData.getD (u.groups.getD r 0) default).accs.getD i []) } : OutRow V) = _
  rw [hcontent r hr]
  exact outRow_of_expected cfg (R.getD (e + r) [])

/-! ### The streaming invariant -/

/-- The invariant tying the operator state after processing the rows `Q` to the
reference run decomposition of `Q`: `e` runs have been emitted, the remaining
runs (including the still-open last one) live in the first `numGroups` slots in
order, each holding exactly its run's key and reference accumulators. -/
structure StreamInv [DecidableEq V] (cfg : OpConfig V) (Q : Batch V) (e : Nat)
    (s : OpState V) : Prop where
  he : e + s.numGroups = (runs cfg.groupingKeys Q).length
  hle : s.numGroups ≤ s.groups.length
  hnodup : s.groups.Nodup
  hbounds : ∀ x ∈ s.groups, x < s.rowData.length
  haccLen : ∀ c ∈ s.rowData, c.accs.length = cfg.aggregates.length
  hcontent : ∀ t, t < s.numGroups →
    s.rowData.getD (s.groups.getD t 0) default =
      expectedSlotContent cfg ((runs cfg.groupingKeys Q).getD (e + t) [])
  hprev : match s.prevInput with
    | none => Q = []
    | some p => p ≠ [] ∧ Q ≠ [] ∧
        keyOf cfg.groupingKeys (p.getD (p.length - 1) []) =
          keyOf cfg.groupingKeys (Q.getLastD [])
  hpos : Q ≠ [] → 1 ≤ s.numGroups
  hinput : s.input = none

theorem streamInv_initial [DecidableEq V] (cfg : OpConfig V) :
    StreamInv cfg [] 0 (initialState (V := V)) := by
  refine ⟨?_, ?_, ?_, ?_, ?_, ?_, ?_, ?_, ?_⟩
  · rw [runs_nil]
    rfl
  · exact le_refl _
  · exact List.nodup_nil
  · intro x hx
    cases hx
  · intro c hc
    cases hc
  · intro t ht
    exact absurd ht (by simp [initialState])
  · rfl
  · intro hc
    exact absurd rfl hc
  · rfl

theorem getElem?_eq_some_getD {α : Type} [Inhabited α] (l : List α) (i : Nat)
    (h : i < l.length) : l[i]? = some (l.getD i default) := by
  rw [List.getElem?_eq_getElem h, List.getD_eq_getElem?_getD, List.getElem?_eq_getElem h]
  rfl

/-- Everything the processing pass of `getOutput` establishes before the
emission decision: after assigning groups, initializing the newly opened
slots (a no-op on their fresh accumulators) and running the kernels, the open
slots hold exactly the reference state of the runs of `Q ++ B` from index `e`
on. -/
def AssignEvalOut [DecidableEq V] (cfg : OpConfig V) (Q B : Batch V) (s : OpState V)
    (e : Nat) : Prop :=
  e + (assignGroups cfg B (addInput s B)).2.numGroups =
      (runs cfg.groupingKeys (Q ++ B)).length
  ∧ (assignGroups cfg B (addInput s B)).2.numGroups ≤
      (assignGroups cfg B (addInput s B)).2.groups.length
  ∧ (assignGroups cfg B (addInput s B)).2.groups.Nodup
  ∧ (∀ x ∈ (assignGroups cfg B (addInput s B)).2.groups,
      x < (assignGroups cfg B (addInput s B)).2.rowData.length)
  ∧ 1 ≤ (assignGroups cfg B (addInput s B)).2.numGroups
  ∧ (assignGroups cfg B (addInput s B)).2.prevInput = s.prevInput
  ∧ (assignGroups cfg B (addInput s B)).2.noMoreInput = s.noMoreInput
  ∧ initializeAllAggs cfg.aggregates.length (assignGroups cfg B (addInput s B)).2.groups
      (List.range' (addInput s B).numGroups
        ((assignGroups cfg B (addInput s B)).2.numGroups - (addInput s B).numGroups))
      (assignGroups cfg B (addInput s B)).2.rowData =
      (assignGroups cfg B (addInput s B)).2.rowData
  ∧ (evaluateAggregates cfg B (List.range B.length) (assignGroups cfg B (addInput s B)).1
      (assignGroups cfg B (addInput s B)).2.rowData).length =
      (assignGroups cfg B (addInput s B)).2.rowData.length
  ∧ (∀ c ∈ evaluateAggregates cfg B (List.range B.length)
        (assignGroups cfg B (addInput s B)).1 (assignGroups cfg B (addInput s B)).2.rowData,
      c.accs.length = cfg.aggregates.length)
  ∧ (∀ t, t < (assignGroups cfg B (addInput s B)).2.numGroups →
      (evaluateAggregates cfg B (List.range B.length) (assignGroups cfg B (addInput s B)).1
          (assignGroups cfg B (addInput s B)).2.rowData).getD
        ((assignGroups cfg B (addInput s B)).2.groups.getD t 0) default =
        expectedSlotContent cfg ((runs cfg.groupingKeys (Q ++ B)).getD (e + t) []))

theorem assign_eval_spec_some [DecidableEq V] (cfg : OpConfig V) (Q B : Batch V)
    (s : OpState V) (e : Nat) (inv : StreamInv cfg Q e s) (p : Batch V)
    (hp : s.prevInput = some p) : AssignEvalOut cfg Q B s e := by
  unfold AssignEvalOut
  have hprev := inv.hprev
  rw [hp] at hprev
  obtain ⟨hpne, hQne, hkey⟩ := hprev
  have hpos1 : 1 ≤ s.numGroups := inv.hpos hQne
  have AO := assignGroups_out_some cfg B (addInput s B) p hp inv.hle inv.hnodup
    inv.hbounds inv.haccLen
  have hpred : (fun row => decide (keyOf cfg.groupingKeys row =
      keyOf cfg.groupingKeys (p.getD (p.length - 1) []))) =
        fun row => decide (keyOf cfg.groupingKeys row =
          keyOf cfg.groupingKeys (Q.getLastD [])) := by
    funext row
    rw [hkey]
  rw [hpred] at AO
  set base := (addInput s B).numGroups with hbaseDef
  set g0 := (addInput s B).groups.getD (base - 1) 0 with hg0Def
  set T := B.takeWhile (fun row => decide (keyOf cfg.groupingKeys row =
    keyOf cfg.groupingKeys (Q.getLastD []))) with hTdef
  set K := runs cfg.groupingKeys (B.dropWhile (fun row =>
    decide (keyOf cfg.groupingKeys row =
      keyOf cfg.groupingKeys (Q.getLastD [])))) with hKdef
  set t1 := (assignGroups cfg B (addInput s B)).2 with ht1def
  set gs := (assignGroups cfg B (addInput s B)).1 with hgsdef
  have hbaseS : base = s.numGroups := rfl
  have hR : runs cfg.groupingKeys (Q ++ B) =
      (runs cfg.groupingKeys Q).dropLast ++
        ((runs cfg.groupingKeys Q).getLastD [] ++ T) :: K := by
    rw [hTdef, hKdef]
    exact runs_append_last cfg.groupingKeys Q B hQne
  have hQlen_pos : 0 < (runs cfg.groupingKeys Q).length :=
    List.length_pos.2 (runs_ne_nil cfg.groupingKeys Q hQne)
  have hnum : t1.numGroups = s.numGroups + K.length := AO.numEq
  have hRlen : (runs cfg.groupingKeys (Q ++ B)).length =
      (runs cfg.groupingKeys Q).length + K.length := by
    rw [hR, List.length_append, List.length_dropLast, List.length_cons]
    omega
  have hinvhe := inv.he
  have he' : e + t1.numGroups = (runs cfg.groupingKeys (Q ++ B)).length := by
    rw [hnum, hRlen]
    omega
  have hlenG : t1.numGroups ≤ t1.groups.length := AO.numLe
  have hpre : ∀ t', t' < s.numGroups → t1.groups.getD t' 0 = s.groups.getD t' 0 := by
    intro t' ht'
    have h1 := AO.prefixEq t' ht'
    have h2 : (addInput s B).groups[t']? = s.groups[t']? := rfl
    rw [List.getD_eq_getElem?_getD, h1, h2, List.getD_eq_getElem?_getD]
  have h_g_eq : g0 = t1.groups.getD (s.numGroups - 1) 0 := by
    rw [hg0Def]
    have hstep : (addInput s B).groups.getD (base - 1) 0 =
        s.groups.getD (s.numGroups - 1) 0 := by
      rw [hbaseS]
      rfl
    rw [hstep, ← hpre (s.numGroups - 1) (by omega)]
  have hsep_old : ∀ t', t' < s.numGroups → ∀ k, k < K.length →
      t1.groups.getD t' 0 ≠ t1.groups.getD (base + k) 0 := by
    intro t' ht' k hk
    have hb1 : t' < t1.groups.length := by omega
    have hb2 : base + k < t1.groups.length := by rw [hbaseS]; omega
    have hb3 : t' ≠ base + k := by rw [hbaseS]; omega
    exact nodup_getD_ne t1.groups AO.nodup t' (base + k) hb1 hb2 hb3
  have hold_rd : ∀ t', t' < s.numGroups →
      t1.rowData.getD (t1.groups.getD t' 0) default =
        s.rowData.getD (t1.groups.getD t' 0) default := by
    intro t' ht'
    have hu := AO.untouched (t1.groups.getD t' 0) (fun k hk => hsep_old t' ht' k hk)
    have hu2 : (addInput s B).rowData[t1.groups.getD t' 0]? =
        s.rowData[t1.groups.getD t' 0]? := rfl
    rw [List.getD_eq_getElem?_getD, hu, hu2, ← List.getD_eq_getElem?_getD]
  have hcontent_old : ∀ t', t' < s.numGroups →
      t1.rowData.getD (t1.groups.getD t' 0) default =
        expectedSlotContent cfg ((runs cfg.groupingKeys Q).getD (e + t') []) := by
    intro t' ht'
    rw [hold_rd t' ht', hpre t' ht']
    exact inv.hcontent t' ht'
  have hBdec : B = T ++ K.flatten := by
    rw [hKdef, runs_flatten, hTdef, List.takeWhile_append_dropWhile]
  have hgsEq : gs = List.replicate T.length g0 ++
      replicateRuns (fun idx => t1.groups.getD idx 0) base K := AO.gsEq
  have hgslen : gs.length = B.length := by
    rw [hgsEq, List.length_append, List.length_replicate,
      length_replicateRuns (fun idx => t1.groups.getD idx 0) K base]
    conv_rhs => rw [hBdec]
    rw [List.length_append]
  have hgsmem : ∀ x ∈ gs, x < t1.rowData.length := by
    intro x hx
    rw [hgsEq, List.mem_append] at hx
    cases hx with
    | inl hrep =>
      have hxg := List.eq_of_mem_replicate hrep
      subst hxg
      rw [h_g_eq]
      exact AO.bounds _ (getD_mem_of_lt _ _ (by omega))
    | inr hrr =>
      obtain ⟨k, hk, hxe⟩ := mem_replicateRuns _ K base x hrr
      subst hxe
      exact AO.bounds _ (getD_mem_of_lt _ _ (by rw [hbaseS]; omega))
  have hbnd3 : ∀ r ∈ List.range B.length, gs.getD r 0 < t1.rowData.length := by
    intro r hr
    rw [List.mem_range] at hr
    exact hgsmem _ (getD_mem_of_lt gs r (by rw [hgslen]; exact hr))
  have haccT1 : ∀ c ∈ t1.rowData, c.accs.length = cfg.aggregates.length := AO.accLen
  have hmiss : ∀ σ, (∀ k, k < K.length → t1.groups.getD (base + k) 0 ≠ σ) → g0 ≠ σ →
      zipSelect gs B σ = [] := by
    intro σ hmk hgσ
    rw [hgsEq, hBdec, zipSelect_replicate_append T.length g0 _ T K.flatten σ rfl,
      if_neg hgσ, List.nil_append]
    exact zipSelect_replicateRuns_miss _ K base σ hmk
  have hseam_ne : ∀ k, k < K.length → t1.groups.getD (base + k) 0 ≠ g0 := by
    intro k hk
    rw [h_g_eq]
    exact nodup_getD_ne t1.groups AO.nodup (base + k) (s.numGroups - 1)
      (by rw [hbaseS]; omega) (by omega) (by rw [hbaseS]; omega)
  have hzsSeam : zipSelect gs B g0 = T := by
    rw [hgsEq, hBdec, zipSelect_replicate_append T.length g0 _ T K.flatten g0 rfl,
      if_pos rfl,
      zipSelect_replicateRuns_miss _ K base g0 (fun k hk => hseam_ne k hk),
      List.append_nil]
  have hnew_ne_g : ∀ k, k < K.length → g0 ≠ t1.groups.getD (base + k) 0 := by
    intro k hk
    exact fun hc => hseam_ne k hk hc.symm
  have hzsNew : ∀ k0, k0 < K.length →
      zipSelect gs B (t1.groups.getD (base + k0) 0) = K.getD k0 [] := by
    intro k0 hk0
    rw [hgsEq, hBdec, zipSelect_replicate_append T.length g0 _ T K.flatten _ rfl,
      if_neg (hnew_ne_g k0 hk0), List.nil_append]
    exact zipSelect_replicateRuns_hit _ K base _ k0 hk0 rfl
      (fun k hk hc => by
        by_contra hne
        exact nodup_getD_ne t1.groups AO.nodup (base + k) (base + k0)
          (by rw [hbaseS]; omega) (by rw [hbaseS]; omega)
          (by omega) hc)
  have hRidx_old : ∀ t', t' < s.numGroups - 1 →
      (runs cfg.groupingKeys (Q ++ B)).getD (e + t') [] =
        (runs cfg.groupingKeys Q).getD (e + t') [] := by
    intro t' ht'
    rw [hR, List.getD_eq_getElem?_getD,
      List.getElem?_append_left (by rw [List.length_dropLast]; omega),
      List.dropLast_eq_take, List.getElem?_take, if_pos (by omega : e + t' <
        (runs cfg.groupingKeys Q).length - 1),
      ← List.getD_eq_getElem?_getD]
  have hRidx_seam : (runs cfg.groupingKeys (Q ++ B)).getD (e + (s.numGroups - 1)) [] =
      (runs cfg.groupingKeys Q).getLastD [] ++ T := by
    rw [hR, List.getD_eq_getElem?_getD,
      List.getElem?_append_right (by rw [List.length_dropLast]; omega),
      List.length_dropLast,
      show e + (s.numGroups - 1) - ((runs cfg.groupingKeys Q).length - 1) = 0 from by omega,
      List.getElem?_cons_zero]
    rfl
  have hRidx_new : ∀ k, k < K.length →
      (runs cfg.groupingKeys (Q ++ B)).getD (e + (s.numGroups + k)) [] = K.getD k [] := by
    intro k hk
    rw [hR, List.getD_eq_getElem?_getD,
      List.getElem?_append_right (by rw [List.length_dropLast]; omega),
      List.length_dropLast,
      show e + (s.numGroups + k) - ((runs cfg.groupingKeys Q).length - 1) = k + 1 from by
        omega,
      List.getElem?_cons_succ, ← List.getD_eq_getElem?_getD]
  have hlastQ_ne : (runs cfg.groupingKeys Q).getLastD [] ≠ [] :=
    runs_ne_nil_mem cfg.groupingKeys Q _
      (getLastD_mem _ _ (runs_ne_nil cfg.groupingKeys Q hQne))
  have hheadApp : ((runs cfg.groupingKeys Q).getLastD [] ++ T).headD [] =
      ((runs cfg.groupingKeys Q).getLastD []).headD [] := by
    cases hcase : (runs cfg.groupingKeys Q).getLastD [] with
    | nil => exact absurd hcase hlastQ_ne
    | cons a l => rw [List.cons_append, List.headD_cons, List.headD_cons]
  have hseam_idx : e + (s.numGroups - 1) = (runs cfg.groupingKeys Q).length - 1 := by omega
  have hseam_old_content : t1.rowData.getD g0 default =
      expectedSlotContent cfg ((runs cfg.groupingKeys Q).getLastD []) := by
    rw [h_g_eq, hcontent_old (s.numGroups - 1) (by omega), hseam_idx,
      getD_length_sub_one _ _ (runs_ne_nil cfg.groupingKeys Q hQne)]
  have hrd2 : initializeAllAggs cfg.aggregates.length t1.groups
      (List.range' base (t1.numGroups - base)) t1.rowData = t1.rowData := by
    apply initializeAllAggs_id
    intro g' hg'
    rw [List.mem_range'_1] at hg'
    rw [hbaseS] at hg'
    have hk : g' - s.numGroups < K.length := by omega
    have hgeq : base + (g' - s.numGroups) = g' := by rw [hbaseS]; omega
    have hnewc := AO.newContent (g' - s.numGroups) hk
    rw [hgeq] at hnewc
    have hslot_bd : t1.groups.getD g' 0 < t1.rowData.length := by
      apply AO.bounds
      apply getD_mem_of_lt
      omega
    refine ⟨⟨keyOf cfg.groupingKeys ((K.getD (g' - s.numGroups) []).headD []),
      List.replicate cfg.aggregates.length []⟩, cfg.aggregates.length, ?_, rfl⟩
    rw [← hnewc]
    exact getElem?_eq_some_getD _ _ hslot_bd
  have hrepl : (List.replicate cfg.aggregates.length ([] : List (Contribution V))) =
      cfg.aggregates.map fun a => refContribs cfg a [] := by
    have hfn : (fun (a : AggregateInfo V) => refContribs cfg a []) =
        fun _ => ([] : List (Contribution V)) := by
      funext a
      rfl
    rw [hfn, List.map_const']
  have hcontent3 : ∀ t, t < t1.numGroups →
      (evaluateAggregates cfg B (List.range B.length) gs t1.rowData).getD
        (t1.groups.getD t 0) default =
        expectedSlotContent cfg ((runs cfg.groupingKeys (Q ++ B)).getD (e + t) []) := by
    intro t ht
    by_cases hcase1 : t < s.numGroups - 1
    · have hslot_bd : t1.groups.getD t 0 < t1.rowData.length :=
        AO.bounds _ (getD_mem_of_lt _ _ (by omega))
      have hold := hcontent_old t (by omega)
      unfold expectedSlotContent at hold
      have hzs : zipSelect gs B (t1.groups.getD t 0) = [] := by
        apply hmiss
        · intro k hk
          exact fun hc => hsep_old t (by omega) k hk hc.symm
        · rw [h_g_eq]
          exact nodup_getD_ne t1.groups AO.nodup (s.numGroups - 1) t
            (by omega) (by omega) (by omega)
      have heval := evaluate_slot cfg B gs t1.rowData hgslen hbnd3 haccT1
        (t1.groups.getD t 0) hslot_bd _ _ hold
      rw [heval, hzs, List.append_nil, hRidx_old t hcase1]
      rfl
    · by_cases hcase2 : t = s.numGroups - 1
      · subst hcase2
        have hslot : t1.groups.getD (s.numGroups - 1) 0 = g0 := h_g_eq.symm
        have hg0bd : g0 < t1.rowData.length := by
          rw [h_g_eq]
          exact AO.bounds _ (getD_mem_of_lt _ _ (by omega))
        have hold := hseam_old_content
        unfold expectedSlotContent at hold
        have heval := evaluate_slot cfg B gs t1.rowData hgslen hbnd3 haccT1
          g0 hg0bd _ _ hold
        rw [hslot, heval, hzsSeam, hRidx_seam]
        unfold expectedSlotContent
        rw [hheadApp]
      · have hklt : t - s.numGroups < K.length := by omega
        have htEq : t = base + (t - s.numGroups) := by rw [hbaseS]; omega
        have hnewc := AO.newContent (t - s.numGroups) hklt
        rw [hrepl] at hnewc
        have hslot_bd : t1.groups.getD (base + (t - s.numGroups)) 0 < t1.rowData.length :=
          AO.bounds _ (getD_mem_of_lt _ _ (by rw [hbaseS]; omega))
        have heval := evaluate_slot cfg B gs t1.rowData hgslen hbnd3 haccT1
          (t1.groups.getD (base + (t - s.numGroups)) 0) hslot_bd _ _ hnewc
        conv_lhs => rw [htEq]
        rw [heval, hzsNew (t - s.numGroups) hklt, List.nil_append,
          show e + t = e + (s.numGroups + (t - s.numGroups)) from by omega,
          hRidx_new (t - s.numGroups) hklt]
        rfl
  exact ⟨he', AO.numLe, AO.nodup, AO.bounds, by omega, AO.prevEq, AO.noMoreEq, hrd2,
    evaluateAggregates_length cfg B _ gs t1.rowData,
    evaluateAggregates_accLen cfg B _ gs t1.rowData hbnd3 haccT1, hcontent3⟩

theorem assign_eval_spec_none [DecidableEq V] (cfg : OpConfig V) (Q B : Batch V)
    (s : OpState V) (e : Nat) (hB : B ≠ []) (inv : StreamInv cfg Q e s)
    (hp : s.prevInput = none) : AssignEvalOut cfg Q B s e := by
  unfold AssignEvalOut
  have hQnil : Q = [] := by
    have h := inv.hprev
    rwa [hp] at h
  subst hQnil
  have he0 : e + s.numGroups = 0 := by
    have h := inv.he
    rw [runs_nil] at h
    simpa using h
  have he0e : e = 0 := by omega
  have hn0 : s.numGroups = 0 := by omega
  subst he0e
  have AO := assignGroups_out_none cfg B (addInput s B) hp inv.hle inv.hnodup
    inv.hbounds inv.haccLen
  rw [show (([] : Batch V) ++ B) = B from List.nil_append B]
  set base := (addInput s B).numGroups with hbaseDef
  set K := runs cfg.groupingKeys B with hKdef
  set t1 := (assignGroups cfg B (addInput s B)).2 with ht1def
  set gs := (assignGroups cfg B (addInput s B)).1 with hgsdef
  have hbaseS : base = s.numGroups := rfl
  have hnum : t1.numGroups = s.numGroups + K.length := AO.numEq
  have hlenG : t1.numGroups ≤ t1.groups.length := AO.numLe
  have hKpos : 0 < K.length := by
    rw [hKdef]
    exact List.length_pos.2 (runs_ne_nil cfg.groupingKeys B hB)
  have hKflat : K.flatten = B := by
    rw [hKdef]
    exact runs_flatten _ _
  have hgsEq2 : gs = replicateRuns (fun idx => t1.groups.getD idx 0) base K := by
    rw [AO.gsEq]
    simp only [List.length_nil, List.replicate_zero, List.nil_append]
  have hgslen : gs.length = B.length := by
    rw [hgsEq2, length_replicateRuns (fun idx => t1.groups.getD idx 0) K base, hKflat]
  have hgsmem : ∀ x ∈ gs, x < t1.rowData.length := by
    intro x hx
    rw [hgsEq2] at hx
    obtain ⟨k, hk, hxe⟩ := mem_replicateRuns _ K base x hx
    subst hxe
    exact AO.bounds _ (getD_mem_of_lt _ _ (by rw [hbaseS]; omega))
  have hbnd3 : ∀ r ∈ List.range B.length, gs.getD r 0 < t1.rowData.length := by
    intro r hr
    rw [List.mem_range] at hr
    exact hgsmem _ (getD_mem_of_lt gs r (by rw [hgslen]; exact hr))
  have haccT1 : ∀ c ∈ t1.rowData, c.accs.length = cfg.aggregates.length := AO.accLen
  have hzsNew : ∀ k0, k0 < K.length →
      zipSelect gs B (t1.groups.getD (base + k0) 0) = K.getD k0 [] := by
    intro k0 hk0
    rw [hgsEq2, show B = K.flatten from hKflat.symm]
    exact zipSelect_replicateRuns_hit _ K base _ k0 hk0 rfl
      (fun k hk hc => by
        by_contra hne
        exact nodup_getD_ne t1.groups AO.nodup (base + k) (base + k0)
          (by rw [hbaseS]; omega) (by rw [hbaseS]; omega)
          (by omega) hc)
  have hrd2 : initializeAllAggs cfg.aggregates.length t1.groups
      (List.range' base (t1.numGroups - base)) t1.rowData = t1.rowData := by
    apply initializeAllAggs_id
    intro g' hg'
    rw [List.mem_range'_1] at hg'
    rw [hbaseS] at hg'
    have hk : g' - s.numGroups < K.length := by omega
    have hgeq : base + (g' - s.numGroups) = g' := by rw [hbaseS]; omega
    have hnewc := AO.newContent (g' - s.numGroups) hk
    rw [hgeq] at hnewc
    have hslot_bd : t1.groups.getD g' 0 < t1.rowData.length := by
      apply AO.bounds
      apply getD_mem_of_lt
      omega
    refine ⟨⟨keyOf cfg.groupingKeys ((K.getD (g' - s.numGroups) []).headD []),
      List.replicate cfg.aggregates.length []⟩, cfg.aggregates.length, ?_, rfl⟩
    rw [← hnewc]
    exact getElem?_eq_some_getD _ _ hslot_bd
  have hrepl : (List.replicate cfg.aggregates.length ([] : List (Contribution V))) =
      cfg.aggregates.map fun a => refContribs cfg a [] := by
    have hfn : (fun (a : AggregateInfo V) => refContribs cfg a []) =
        fun _ => ([] : List (Contribution V)) := by
      funext a
      rfl
    rw [hfn, List.map_const']
  have hcontent3 : ∀ t, t < t1.numGroups →
      (evaluateAggregates cfg B (List.range B.length) gs t1.rowData).getD
        (t1.groups.getD t 0) default =
        expectedSlotContent cfg (K.getD (0 + t) []) := by
    intro t ht
    have hklt : t < K.length := by omega
    have htEq : t = base + t := by rw [hbaseS]; omega
    have hnewc := AO.newContent t hklt
    rw [hrepl] at hnewc
    have hslot_bd : t1.groups.getD (base + t) 0 < t1.rowData.length :=
      AO.bounds _ (getD_mem_of_lt _ _ (by rw [hbaseS]; omega))
    have heval := evaluate_slot cfg B gs t1.rowData hgslen hbnd3 haccT1
      (t1.groups.getD (base + t) 0) hslot_bd _ _ hnewc
    conv_lhs => rw [htEq]
    rw [heval, hzsNew t hklt, List.nil_append, Nat.zero_add]
    rfl
  exact ⟨by omega, AO.numLe, AO.nodup, AO.bounds, by omega, AO.prevEq, AO.noMoreEq, hrd2,
    evaluateAggregates_length cfg B _ gs t1.rowData,
    evaluateAggregates_accLen cfg B _ gs t1.rowData hbnd3 haccT1, hcontent3⟩

theorem assign_eval_spec [DecidableEq V] (cfg : OpConfig V) (Q B : Batch V)
    (s : OpState V) (e : Nat) (hB : B ≠ []) (inv : StreamInv cfg Q e s) :
    AssignEvalOut cfg Q B s e := by
  cases hp : s.prevInput with
  | none => exact assign_eval_spec_none cfg Q B s e hB inv hp
  | some p => exact assign_eval_spec_some cfg Q B s e inv p hp

theorem step_spec [DecidableEq V] (cfg : OpConfig V) (Q B : Batch V) (s : OpState V)
    (e : Nat) (hB : B ≠ []) (inv : StreamInv cfg Q e s) :
    ∃ k, StreamInv cfg (Q ++ B) (e + k) (getOutput cfg (addInput s B)).2.1
      ∧ (getOutput cfg (addInput s B)).1.toList.flatten =
          (((runs cfg.groupingKeys (Q ++ B)).drop e).take k).map (refOutRow cfg) := by
  obtain ⟨he', hle', hnd', hbounds', hpos', hprev', hnmi', hrd2, hlen3, hacc3, hcontent3⟩ :=
    assign_eval_spec cfg Q B s e hB inv
  have hin : (addInput s B).input = some B := rfl
  set t1 := (assignGroups cfg B (addInput s B)).2 with ht1def
  set gs := (assignGroups cfg B (addInput s B)).1 with hgsdef
  set rd3 := evaluateAggregates cfg B (List.range B.length) gs t1.rowData with hrd3def
  set R := runs cfg.groupingKeys (Q ++ B) with hRdef
  have hQBne : Q ++ B ≠ [] := by
    intro hc
    exact hB (List.append_eq_nil.1 hc).2
  have hlastQB : (Q ++ B).getLastD [] = B.getLastD [] :=
    getLastD_append_right Q B [] hB
  have hkeyB : keyOf cfg.groupingKeys (B.getD (B.length - 1) []) =
      keyOf cfg.groupingKeys ((Q ++ B).getLastD []) := by
    rw [hlastQB, getD_length_sub_one B [] hB]
  have hbounds3 : ∀ x ∈ t1.groups, x < rd3.length := by
    intro x hx
    rw [hlen3]
    exact hbounds' x hx
  by_cases hemit : cfg.outputBatchSize < t1.numGroups
  · have hfst : (getOutput cfg (addInput s B)).1 =
        some (createOutput cfg { t1 with rowData := rd3 } cfg.outputBatchSize) := by
      simp only [getOutput, hin, hrd2, if_pos hemit]
    have hsnd : (getOutput cfg (addInput s B)).2.1 =
        { t1 with
          rowData := rd3,
          groups := t1.groups.drop cfg.outputBatchSize ++ t1.groups.take cfg.outputBatchSize,
          numGroups := t1.numGroups - cfg.outputBatchSize,
          prevInput := some B,
          input := none } := by
      simp only [getOutput, hin, hrd2, if_pos hemit]
    have hoble : cfg.outputBatchSize ≤ t1.groups.length := by omega
    refine ⟨cfg.outputBatchSize, ?_, ?_⟩
    · rw [hsnd]
      refine ⟨?_, ?_, ?_, ?_, ?_, ?_, ?_, ?_, ?_⟩
      · show e + cfg.outputBatchSize + (t1.numGroups - cfg.outputBatchSize) = R.length
        omega
      · show t1.numGroups - cfg.outputBatchSize ≤
          (t1.groups.drop cfg.outputBatchSize ++
            t1.groups.take cfg.outputBatchSize).length
        rw [List.length_append, List.length_drop, List.length_take,
          Nat.min_eq_left hoble]
        omega
      · show (t1.groups.drop cfg.outputBatchSize ++
          t1.groups.take cfg.outputBatchSize).Nodup
        exact ((rotate_perm t1.groups cfg.outputBatchSize).nodup_iff).2 hnd'
      · intro x hx
        show x < rd3.length
        exact hbounds3 x ((rotate_perm t1.groups cfg.outputBatchSize).mem_iff.1 hx)
      · exact hacc3
      · intro t ht
        have ht2 : t < t1.numGroups - cfg.outputBatchSize := ht
        show rd3.getD ((t1.groups.drop cfg.outputBatchSize ++
            t1.groups.take cfg.outputBatchSize).getD t 0) default =
          expectedSlotContent cfg (R.getD (e + cfg.outputBatchSize + t) [])
        rw [rotate_getD t1.groups cfg.outputBatchSize t (by omega),
          show e + cfg.outputBatchSize + t = e + (cfg.outputBatchSize + t) from by omega]
        exact hcontent3 (cfg.outputBatchSize + t) (by omega)
      · show match some B with
          | none => Q ++ B = []
          | some p => p ≠ [] ∧ Q ++ B ≠ [] ∧
              keyOf cfg.groupingKeys (p.getD (p.length - 1) []) =
                keyOf cfg.groupingKeys ((Q ++ B).getLastD [])
        exact ⟨hB, hQBne, hkeyB⟩
      · intro _
        show 1 ≤ t1.numGroups - cfg.outputBatchSize
        omega
      · rfl
    · rw [hfst]
      show createOutput cfg { t1 with rowData := rd3 } cfg.outputBatchSize ++ [] =
        ((R.drop e).take cfg.outputBatchSize).map (refOutRow cfg)
      rw [List.append_nil]
      apply createOutput_emits cfg _ R e cfg.outputBatchSize (by omega)
      intro t ht
      show rd3.getD (t1.groups.getD t 0) default =
        expectedSlotContent cfg (R.getD (e + t) [])
      exact hcontent3 t (by omega)
  · have hfst : (getOutput cfg (addInput s B)).1 = none := by
      simp only [getOutput, hin, hrd2, if_neg hemit]
    have hsnd : (getOutput cfg (addInput s B)).2.1 =
        { t1 with
          rowData := rd3,
          prevInput := some B,
          input := none } := by
      simp only [getOutput, hin, hrd2, if_neg hemit]
    refine ⟨0, ?_, ?_⟩
    · rw [hsnd]
      refine ⟨?_, ?_, ?_, ?_, ?_, ?_, ?_, ?_, ?_⟩
      · show e + 0 + t1.numGroups = R.length
        omega
      · exact hle'
      · exact hnd'
      · intro x hx
        show x < rd3.length
        exact hbounds3 x hx
      · exact hacc3
      · intro t ht
        show rd3.getD (t1.groups.getD t 0) default =
          expectedSlotContent cfg (R.getD (e + 0 + t) [])
        rw [show e + 0 + t = e + t from by omega]
        exact hcontent3 t ht
      · show match some B with
          | none => Q ++ B = []
          | some p => p ≠ [] ∧ Q ++ B ≠ [] ∧
              keyOf cfg.groupingKeys (p.getD (p.length - 1) []) =
                keyOf cfg.groupingKeys ((Q ++ B).getLastD [])
        exact ⟨hB, hQBne, hkeyB⟩
      · intro _
        show 1 ≤ t1.numGroups
        exact hpos'
      · rfl
    · rw [hfst]
      show ([] : List (OutRow V)) = ((R.drop e).take 0).map (refOutRow cfg)
      rw [List.take_zero]
      rfl

theorem take_drop_take {α : Type} (l : List α) (e k : Nat) :
    (l.drop e).take k = (l.take (e + k)).drop e := by
  rw [List.drop_take, show e + k - e = k from by omega]
theorem runBatches_spec [DecidableEq V] (cfg : OpConfig V) (batches : List (Batch V)) :
    ∀ (Q : Batch V) (e : Nat) (s : OpState V), StreamInv cfg Q e s →
    (∀ b ∈ batches, b ≠ []) →
    ∃ e', e ≤ e'
      ∧ StreamInv cfg (Q ++ batches.flatten) e' (runBatches cfg s batches).2
      ∧ (runBatches cfg s batches).1.flatten =
          (((runs cfg.groupingKeys (Q ++ batches.flatten)).drop e).take (e' - e)).map
            (refOutRow cfg) := by
  induction batches with
  | nil =>
    intro Q e s inv _
    refine ⟨e, le_refl e, ?_, ?_⟩
    · rw [List.flatten_nil, List.append_nil]
      exact inv
    · rw [Nat.sub_self, List.take_zero]
      rfl
  | cons b rest ih =>
    intro Q e s inv hne
    obtain ⟨k, inv1, hout1⟩ := step_spec cfg Q b s e (hne b (List.mem_cons_self b rest)) inv
    obtain ⟨e', hle, inv2, hout2⟩ := ih (Q ++ b) (e + k) (getOutput cfg (addInput s b)).2.1
      inv1 (fun x hx => hne x (List.mem_cons_of_mem b hx))
    have hassoc : (Q ++ b) ++ rest.flatten = Q ++ (b :: rest).flatten := by
      rw [List.flatten_cons, List.append_assoc]
    have hQbne : Q ++ b ≠ [] := by
      intro hc
      exact hne b (List.mem_cons_self b rest) (List.append_eq_nil.1 hc).2
    have hbound1 : e + k < (runs cfg.groupingKeys (Q ++ b)).length := by
      have h1 := inv1.he
      have h2 := inv1.hpos hQbne
      omega
    have hstab : ((runs cfg.groupingKeys ((Q ++ b) ++ rest.flatten)).drop e).take k =
        ((runs cfg.groupingKeys (Q ++ b)).drop e).take k := by
      rw [take_drop_take, take_drop_take,
        runs_take_stable cfg.groupingKeys (Q ++ b) rest.flatten hQbne (e + k) hbound1]
    refine ⟨e', by omega, ?_, ?_⟩
    · rw [← hassoc]
      exact inv2
    · have hrb : (runBatches cfg s (b :: rest)).1 =
          (getOutput cfg (addInput s b)).1.toList ++
            (runBatches cfg (getOutput cfg (addInput s b)).2.1 rest).1 := rfl
      rw [hrb, List.flatten_append, hout1, hout2, ← hassoc]
      rw [show e' - e = k + (e' - e - k) from by omega, List.take_add, List.map_append]
      congr 1
      · exact congrArg (List.map (refOutRow cfg)) hstab.symm
      · rw [List.drop_drop, show e' - (e + k) = e' - e - k from by omega]

theorem flush_spec [DecidableEq V] (cfg : OpConfig V) (Q : Batch V) (e : Nat)
    (s : OpState V) (inv : StreamInv cfg Q e s) :
    (getOutput cfg { s with noMoreInput := true }).1.toList.flatten =
      ((runs cfg.groupingKeys Q).drop e).map (refOutRow cfg) := by
  have hin : s.input = none := inv.hinput
  by_cases hng : 0 < s.numGroups
  · have hfst : (getOutput cfg { s with noMoreInput := true }).1 =
        some (createOutput cfg { s with noMoreInput := true } s.numGroups) := by
      simp only [getOutput, hin]
      rw [if_pos (by simp [hng])]
    rw [hfst]
    show createOutput cfg { s with noMoreInput := true } s.numGroups ++ [] = _
    rw [List.append_nil]
    have hinvhe := inv.he
    have hdropLen : ((runs cfg.groupingKeys Q).drop e).length = s.numGroups := by
      rw [List.length_drop]
      omega
    have hemits := createOutput_emits cfg { s with noMoreInput := true }
      (runs cfg.groupingKeys Q) e s.numGroups (by omega)
      (fun t ht => by
        show s.rowData.getD (s.groups.getD t 0) default =
          expectedSlotContent cfg ((runs cfg.groupingKeys Q).getD (e + t) [])
        exact inv.hcontent t ht)
    rw [hemits, List.take_of_length_le (le_of_eq hdropLen)]
  · have hn0 : s.numGroups = 0 := by omega
    have hfst : (getOutput cfg { s with noMoreInput := true }).1 = none := by
      simp only [getOutput, hin]
      rw [if_neg (by simp [hn0])]
    rw [hfst]
    have hinvhe := inv.he
    have hdrop : (runs cfg.groupingKeys Q).drop e = [] := by
      apply List.drop_eq_nil_of_le
      omega
    rw [hdrop]
    rfl

/-- **C1.** For every input stream delivered as nonempty batches, the
concatenation of all batches returned by `getOutput` (including the terminal
flush after `noMoreInput`) equals the reference group-by over the concatenated
input: one output row per maximal run of equal-key rows, carrying that run's
key tuple and reference aggregate accumulators; and when the stream is
non-decreasing on the grouping keys — rendered as `keysContiguous`, i.e. no
key recurs after its run ends — the emitted key sequence is exactly the
distinct keys in first-encounter order, regardless of how the stream is split
into batches. -/
theorem c1_end_to_end [DecidableEq V] (cfg : OpConfig V) (batches : List (Batch V))
    (hne : ∀ b ∈ batches, b ≠ []) :
    (runStream cfg batches).flatten = referenceGroupBy cfg batches.flatten
    ∧ (keysContiguous cfg.groupingKeys batches.flatten = true →
        ((runStream cfg batches).flatten.map fun o => o.keys) =
          distinctKeysInOrder cfg.groupingKeys batches.flatten) := by
  obtain ⟨e', h0e, inv, hout⟩ := runBatches_spec cfg batches [] 0 initialState
    (streamInv_initial cfg) hne
  rw [List.nil_append] at inv hout
  rw [Nat.sub_zero, List.drop_zero] at hout
  have hflush := flush_spec cfg batches.flatten e'
    (runBatches cfg initialState batches).2 inv
  have hmain : (runStream cfg batches).flatten = referenceGroupBy cfg batches.flatten := by
    unfold runStream referenceGroupBy
    rw [List.flatten_append, hout, hflush, ← List.map_append, List.take_append_drop]
  refine ⟨hmain, fun hcontig => ?_⟩
  rw [hmain]
  unfold referenceGroupBy
  rw [List.map_map]
  have hcomp : ((fun (o : OutRow V) => o.keys) ∘ refOutRow cfg) =
      fun run => keyOf cfg.groupingKeys (run.headD []) := rfl
  rw [hcomp]
  exact runs_keys_eq_distinctKeys cfg.groupingKeys batches.flatten hcontig

theorem c1_end_to_end_witness :
    (∀ b ∈ [wBatch], b ≠ [])
    ∧ ((runStream wCfg [wBatch]).flatten = referenceGroupBy wCfg [wBatch].flatten
      ∧ (keysContiguous wCfg.groupingKeys [wBatch].flatten = true →
          ((runStream wCfg [wBatch]).flatten.map fun o => o.keys) =
            distinctKeysInOrder wCfg.groupingKeys [wBatch].flatten)) :=
  ⟨by decide, c1_end_to_end wCfg [wBatch] (by decide)⟩
